import Mathlib

/-!
# Verification of the ARES BookNLP output-contract builder

Shallow embedding of `src/scripts/booknlp_runner.py` (the contract-building
core: `parse_tsv_file`, `build_token_index`, `build_characters_and_mentions`,
`build_coref_chains`, `build_quotes`, `build_contract`) together with proofs
settling the frozen claims about it.

Modelling conventions:
* Python `int` is `Int` (arbitrary precision); `len` counts are `Nat`.
* Python dicts are insertion-ordered association lists; `dictInsert` models
  `d[k] = v` (overwrite in place, new keys appended), `dictFind?` models
  `d.get(k)`, and `dictAppend` models `defaultdict(list)`'s `d[k].append(v)`.
* A parsed TSV row is an association list from header name to field value,
  as built by `parse_tsv_file`'s dict comprehension.
* A row-processing loop body wrapped in `try/except (ValueError, KeyError,
  IndexError): continue` becomes an `Option`-valued per-row parser: `none`
  means the row is dropped.
* Python `int(s)` on strings becomes `pyInt?` (whitespace-trimmed, optional
  sign, digits with single underscores between digits; `none` = `ValueError`).
* File inputs are `Option String` (the file's text content, `none` = file
  absent); `Path.read_text` + existence checks are resolved at that boundary.
-/

/-! ## Python-style dictionaries (insertion ordered association lists) -/

/-- Model of `d[k] = v` on a Python dict: overwrite in place if the key is
present, otherwise append the new binding at the end. -/
def dictInsert {κ α : Type} [DecidableEq κ] : List (κ × α) → κ → α → List (κ × α)
  | [], k, v => [(k, v)]
  | (k', v') :: rest, k, v =>
    if k' = k then (k, v) :: rest else (k', v') :: dictInsert rest k v

/-- Model of `d.get(k)` on a Python dict (first binding wins; `dictInsert`
keeps keys unique so first = last). -/
def dictFind? {κ α : Type} [DecidableEq κ] : List (κ × α) → κ → Option α
  | [], _ => none
  | (k', v) :: rest, k => if k' = k then some v else dictFind? rest k

/-- Model of `defaultdict(list)`'s `d[k].append(v)`: append to the existing
group in place, or append a fresh singleton group at the end. -/
def dictAppend {κ α : Type} [DecidableEq κ] : List (κ × List α) → κ → α → List (κ × List α)
  | [], k, v => [(k, [v])]
  | (k', vs) :: rest, k, v =>
    if k' = k then (k', vs ++ [v]) :: rest else (k', vs) :: dictAppend rest k v

/-! ## Python string primitives

`str.strip()`, `str.split(sep)` and `str.join` are modelled directly on the
character list of the string (the built-in `String` versions are equivalent
but are not kernel-reducible, which concrete witnesses need). -/

/-- Model of `str.strip()` (no argument): drop leading and trailing
whitespace.  (CPython's whitespace set also has `\x0b`/`\f` etc.; the TSV
sources only contain the common four.) -/
def pyStrip (s : String) : List Char :=
  ((s.data.dropWhile Char.isWhitespace).reverse.dropWhile Char.isWhitespace).reverse

/-- Model of `str.split(sep)` for a one-character separator, on character
lists: splitting the empty string yields `[""]`, like Python. -/
def pySplitChars (sep : Char) (cs : List Char) : List (List Char) :=
  cs.foldr
    (fun c acc =>
      match acc with
      | [] => [[c]]
      | g :: gs => if c = sep then [] :: g :: gs else (c :: g) :: gs)
    [[]]

/-- `str.split(sep)` returning strings. -/
def pySplit (s : String) (sep : Char) : List String :=
  (pySplitChars sep s.data).map String.mk

/-- Model of `sep.join(parts)`. -/
def pyJoin (sep : String) : List String → String
  | [] => ""
  | [p] => p
  | p :: rest => p ++ sep ++ pyJoin sep rest

/-! ## Python `int()` string parsing -/

/-- Numeric value of a decimal digit character. -/
def digitVal (c : Char) : Nat := c.toNat - 48

/-- Accumulate the remaining characters of a Python integer literal:
digits, with single underscores allowed between digits. -/
def pyIntDigitsGo : List Char → Nat → Option Nat
  | [], acc => some acc
  | c :: rest, acc =>
    if c.isDigit then pyIntDigitsGo rest (acc * 10 + digitVal c)
    else if c = '_' then
      match rest with
      | d :: rest' =>
        if d.isDigit then pyIntDigitsGo rest' (acc * 10 + digitVal d) else none
      | [] => none
    else none

/-- An unsigned Python integer literal: nonempty, starts with a digit. -/
def pyIntDigits? : List Char → Option Nat
  | [] => none
  | c :: rest => if c.isDigit then pyIntDigitsGo rest (digitVal c) else none

/-- Model of Python `int(s)` on a string: strip surrounding whitespace, then
an optional sign followed by digits (single underscores allowed between
digits).  `none` models the `ValueError`.  (Unicode digits, which CPython
also accepts, are outside the model: the source files are ASCII TSV.) -/
def pyInt? (s : String) : Option Int :=
  match pyStrip s with
  | '+' :: rest => (pyIntDigits? rest).map (fun n => (n : Int))
  | '-' :: rest => (pyIntDigits? rest).map (fun n => -(n : Int))
  | cs => (pyIntDigits? cs).map (fun n => (n : Int))

/-! ## Tabular reader: `parse_tsv_file` -/

/-- A parsed TSV row: header name → field value, as built by the dict
comprehension in `parse_tsv_file`. -/
abbrev Row := List (String × String)

/-- Model of `row.get(k, d)`. -/
def rowGetD (r : Row) (k d : String) : String := (dictFind? r k).getD d

/-- One data line zipped against the headers:
`{headers[i]: parts[i] if i < len(parts) else "" for i in range(len(headers))}`. -/
def rowOfLine (headers : List String) (line : String) : Row :=
  (headers.enum).foldl
    (fun acc p => dictInsert acc p.2 ((pySplit line '\t').getD p.1 "")) []

/-- Model of `parse_tsv_file`: `none` content models a missing file
(`path.exists()` false → `[]`); otherwise strip the text, split into lines,
take the first line as headers and zip every remaining line against them. -/
def parse_tsv_file (content : Option String) : List Row :=
  match content with
  | none => []
  | some c =>
    match (pySplitChars '\n' (pyStrip c)).map String.mk with
    | [] => []
    | header :: rest => rest.map (rowOfLine (pySplit header '\t'))

/-! ## Token indexer: `build_token_index` -/

/-- The `Token` TypedDict of the contract.  The source field `lemma` is a
Lean keyword and is rendered `lemma_`. -/
structure Token where
  idx : Nat
  text : String
  lemma_ : String
  pos : String
  ner : String
  start_char : Int
  end_char : Int
  sentence_idx : Int
  paragraph_idx : Int
deriving Repr, DecidableEq

/-- The body of the `build_token_index` row loop: parse the four numeric
fields (any failure = `ValueError` → row dropped), fill the text fields with
their documented fallbacks.  `idx` is assigned by the caller (`len(tokens)`
at append time); the placeholder here is 0. -/
def parseTokenRow (row : Row) : Option Token :=
  match pyInt? (rowGetD row "byte_onset" "0"), pyInt? (rowGetD row "byte_offset" "0"),
        pyInt? (rowGetD row "sentence_id" "0"), pyInt? (rowGetD row "paragraph_id" "0") with
  | some bs, some be, some si, some pg =>
    some { idx := 0,
           text := rowGetD row "word" "",
           lemma_ := rowGetD row "lemma" (rowGetD row "word" ""),
           pos := rowGetD row "POS_tag" (rowGetD row "pos" ""),
           ner := rowGetD row "NER_tag" (rowGetD row "ner" "O"),
           start_char := bs, end_char := be,
           sentence_idx := si, paragraph_idx := pg }
  | _, _, _, _ => none

/-- The `build_token_index` loop: append each successfully parsed token with
`idx := len(tokens)` (its position in the accumulated list), silently
dropping rows that fail numeric parsing. -/
def btiGo : List Row → List Token → List Token
  | [], acc => acc
  | r :: rs, acc =>
    match parseTokenRow r with
    | some t => btiGo rs (acc ++ [{ t with idx := acc.length }])
    | none => btiGo rs acc

/-- Model of `build_token_index(tokens_file, text)` (the `text` parameter is
unused in the source as well). -/
def build_token_index (tokens_file : Option String) (text : String) : List Token :=
  btiGo (parse_tsv_file tokens_file) []

/-! ## Decimal rendering (Python f-string formatting of integers) -/

/-- Character of one decimal digit. -/
def digitChar (d : Nat) : Char := Char.ofNat (48 + d)

/-- Decimal digit characters of `n`, most significant first; the first
argument is recursion fuel (any `fuel ≥ n` computes all digits). -/
def decDigitsGo : Nat → Nat → List Char
  | 0, _ => []
  | fuel + 1, n => if n = 0 then [] else decDigitsGo fuel (n / 10) ++ [digitChar (n % 10)]

/-- Standard decimal rendering of a natural number, as produced by Python
f-string interpolation of a non-negative `int`. -/
def decRepr (n : Nat) : String :=
  if n = 0 then "0" else String.mk (decDigitsGo n n)

/-- `f"char_{coref_id}"`; only applied under the source's `coref_id >= 0`
guard. -/
def charIdOf (coref_id : Int) : String := "char_" ++ decRepr coref_id.toNat

/-! ## Entity resolver: `build_characters_and_mentions` -/

/-- The `Mention` TypedDict of the contract. -/
structure Mention where
  id : String
  character_id : Option String
  text : String
  start_token : Int
  end_token : Int
  start_char : Int
  end_char : Int
  sentence_idx : Int
  mention_type : String
  entity_type : String
deriving Repr, DecidableEq

/-- The per-row record appended to `cluster_mentions[coref_id]`
(`{"text": ..., "type": ..., "canonical": row.get("name", text)}`; the source
key `type` is a Lean keyword and is rendered `mtype`). -/
structure ClusterEntry where
  text : String
  mtype : String
  canonical : String
deriving Repr, DecidableEq

/-- Python list indexing `l[i]`: non-negative indices from the front,
negative indices from the back, `none` models the `IndexError`. -/
def pyGet {α : Type} (l : List α) (i : Int) : Option α :=
  if 0 ≤ i then l[i.toNat]?
  else if 0 ≤ (l.length : Int) + i then l[((l.length : Int) + i).toNat]?
  else none

/-- `tokens[t]["start_char"] if t < len(tokens) else 0`. -/
def resolveStartChar (tokens : List Token) (t : Int) : Option Int :=
  if t < (tokens.length : Int) then (pyGet tokens t).map Token.start_char else some 0

/-- `tokens[t]["end_char"] if t < len(tokens) else 0`. -/
def resolveEndChar (tokens : List Token) (t : Int) : Option Int :=
  if t < (tokens.length : Int) then (pyGet tokens t).map Token.end_char else some 0

/-- `tokens[t]["sentence_idx"] if t < len(tokens) else 0`. -/
def resolveSentenceIdx (tokens : List Token) (t : Int) : Option Int :=
  if t < (tokens.length : Int) then (pyGet tokens t).map Token.sentence_idx else some 0

/-- The body of the `build_characters_and_mentions` row loop, for the row at
index `i`: `none` models a row dropped by the
`except (ValueError, KeyError, IndexError)` handler.  On success it returns
the built `Mention` together with (for `coref_id >= 0`) the cluster key and
the entry appended to `cluster_mentions`. -/
def parseEntityRow (tokens : List Token) (i : Nat) (row : Row) :
    Option (Mention × Option (Int × ClusterEntry)) :=
  match pyInt? (rowGetD row "COREF" "-1"), pyInt? (rowGetD row "start_token" "0"),
        pyInt? (rowGetD row "end_token" "0") with
  | some coref, some startTok, some endTok =>
    match resolveStartChar tokens startTok, resolveEndChar tokens endTok,
          resolveSentenceIdx tokens startTok with
    | some sc, some ec, some si =>
      let mentionType := rowGetD row "mention_type" (rowGetD row "cat" "PROP")
      let entityType := rowGetD row "entity_type" (rowGetD row "ner" "PER")
      let text := rowGetD row "text" ""
      some ({ id := "mention_" ++ decRepr i,
              character_id := if 0 ≤ coref then some (charIdOf coref) else none,
              text := text,
              start_token := startTok, end_token := endTok,
              start_char := sc, end_char := ec, sentence_idx := si,
              mention_type := mentionType, entity_type := entityType },
            if 0 ≤ coref then
              some (coref, { text := text, mtype := mentionType,
                             canonical := rowGetD row "name" text })
            else none)
    | _, _, _ => none
  | _, _, _ => none

/-- The loop state of `build_characters_and_mentions`: the three
accumulators `cluster_mentions`, `mentions`, `cluster_to_char_id`. -/
structure BCMState where
  clusterMentions : List (Int × List ClusterEntry)
  mentions : List Mention
  clusterToCharId : List (Int × String)
deriving Repr

/-- The `build_characters_and_mentions` row loop over `enumerate(rows)`. -/
def bcmGo (tokens : List Token) : List (Nat × Row) → BCMState → BCMState
  | [], st => st
  | (i, row) :: rest, st =>
    match parseEntityRow tokens i row with
    | none => bcmGo tokens rest st
    | some (m, none) => bcmGo tokens rest { st with mentions := st.mentions ++ [m] }
    | some (m, some (c, e)) =>
      bcmGo tokens rest
        { clusterMentions := dictAppend st.clusterMentions c e,
          mentions := st.mentions ++ [m],
          clusterToCharId := dictInsert st.clusterToCharId c (charIdOf c) }

/-- One alias entry of a `Character`. -/
structure CharacterAlias where
  text : String
  count : Nat
deriving Repr, DecidableEq

/-- The `Character` TypedDict of the contract. -/
structure Character where
  id : String
  canonical_name : String
  aliases : List CharacterAlias
  mention_count : Nat
  gender : Option String
  agent_score : Float
deriving Repr

/-- `alias_counts`: the `defaultdict(int)` occurrence-count fold
`alias_counts[m["text"]] += 1` over the cluster's entries. -/
def countsOf (texts : List String) : List (String × Nat) :=
  texts.foldl (fun acc t => dictInsert acc t ((dictFind? acc t).getD 0 + 1)) []

/-- The canonical-name fold: start from `""`, overwrite with every truthy
(non-empty) `canonical` value in order — last non-empty wins. -/
def canonicalFold (data : List ClusterEntry) : String :=
  data.foldl (fun acc e => if e.canonical ≠ "" then e.canonical else acc) ""

/-- `max(alias_counts.items(), key=lambda x: x[1])`: Python `max` keeps the
first maximal element.  The `[]` case is unreachable in the pipeline
(cluster groups are created nonempty); Python would raise there. -/
def pyMaxBySnd : List (String × Nat) → String × Nat
  | [] => ("", 0)
  | x :: xs => xs.foldl (fun best y => if best.2 < y.2 then y else best) x

/-- The character built from one `cluster_mentions` group. -/
def mkCharacter (cluster_id : Int) (data : List ClusterEntry) : Character :=
  let alias_counts := countsOf (data.map ClusterEntry.text)
  let canon0 := canonicalFold data
  let canonical_name := if canon0 = "" then (pyMaxBySnd alias_counts).1 else canon0
  { id := charIdOf cluster_id,
    canonical_name := canonical_name,
    aliases := ((alias_counts.mergeSort (fun a b => b.2 ≤ a.2)).filter
        (fun p => p.1 ≠ canonical_name)).map (fun p => { text := p.1, count := p.2 }),
    mention_count := data.length,
    gender := none,
    agent_score := 0.0 }

/-- Model of `build_characters_and_mentions(entities_file, tokens)`. -/
def build_characters_and_mentions (entities_file : Option String) (tokens : List Token) :
    List Character × List Mention × List (Int × String) :=
  let rows := parse_tsv_file entities_file
  let st := bcmGo tokens rows.enum
    { clusterMentions := [], mentions := [], clusterToCharId := [] }
  (st.clusterMentions.map (fun p => mkCharacter p.1 p.2), st.mentions, st.clusterToCharId)

/-! ## Chain builder: `build_coref_chains` -/

/-- The `CorefChain` TypedDict of the contract. -/
structure CorefChain where
  chain_id : String
  character_id : Option String
  mentions : List String
deriving Repr, DecidableEq

/-- The `chains_by_char` fold: `defaultdict(list)` keyed by `character_id`,
guarded by Python truthiness (`if mention["character_id"]:` skips both
`None` and `""`). -/
def chainsFold (mentions : List Mention) : List (String × List String) :=
  mentions.foldl
    (fun acc m =>
      match m.character_id with
      | some s => if s = "" then acc else dictAppend acc s m.id
      | none => acc) []

/-- Model of `build_coref_chains(mentions, cluster_to_char_id)` (the second
parameter is unused in the source as well). -/
def build_coref_chains (mentions : List Mention)
    (cluster_to_char_id : List (Int × String)) : List CorefChain :=
  (chainsFold mentions).map
    (fun p => { chain_id := "chain_" ++ p.1, character_id := some p.1, mentions := p.2 })

/-! ## Quote resolver: `build_quotes` -/

/-- The `Quote` TypedDict of the contract. -/
structure Quote where
  id : String
  text : String
  start_token : Int
  end_token : Int
  start_char : Int
  end_char : Int
  speaker_id : Option String
  speaker_name : Option String
  addressee_id : Option String
  quote_type : String
deriving Repr, DecidableEq

/-- Python list slicing `l[a:b]`: negative bounds count from the back, both
bounds are clamped to `[0, len(l)]`. -/
def pySlice {α : Type} (l : List α) (a b : Int) : List α :=
  let n : Int := l.length
  let lo := if a < 0 then max (n + a) 0 else min a n
  let hi := if b < 0 then max (n + b) 0 else min b n
  (l.drop lo.toNat).take (hi - lo).toNat

/-- The body of the `build_quotes` row loop for the row at index `i`:
`none` models a dropped row.  Speaker resolution follows the source: the
literal values `""`, `"_"` and `"-1"` mean "no speaker"; a non-integer
value hits the inner `except ValueError: pass`; an integer value is looked
up in `cluster_to_char_id`, and the name only resolved for a truthy id. -/
def parseQuoteRow (tokens : List Token) (cluster_to_char_id : List (Int × String))
    (char_id_to_name : List (String × String)) (i : Nat) (row : Row) : Option Quote :=
  match pyInt? (rowGetD row "quote_start" (rowGetD row "start" "0")),
        pyInt? (rowGetD row "quote_end" (rowGetD row "end" "0")) with
  | some startTok, some endTok =>
    match resolveStartChar tokens startTok, resolveEndChar tokens endTok with
    | some sc, some ec =>
      let speakerCluster := rowGetD row "char_id" (rowGetD row "speaker" "")
      let sp : Option String × Option String :=
        if speakerCluster ≠ "" ∧ speakerCluster ≠ "_" ∧ speakerCluster ≠ "-1" then
          match pyInt? speakerCluster with
          | none => (none, none)
          | some n =>
            match dictFind? cluster_to_char_id n with
            | none => (none, none)
            | some sid =>
              (some sid, if sid = "" then none else dictFind? char_id_to_name sid)
        else (none, none)
      let quoteText0 := rowGetD row "quote" ""
      let quoteText :=
        if quoteText0 = "" ∧ startTok < (tokens.length : Int) ∧ endTok < (tokens.length : Int)
        then pyJoin " " ((pySlice tokens startTok (endTok + 1)).map Token.text)
        else quoteText0
      some { id := "quote_" ++ decRepr i, text := quoteText,
             start_token := startTok, end_token := endTok,
             start_char := sc, end_char := ec,
             speaker_id := sp.1, speaker_name := sp.2,
             addressee_id := none, quote_type := rowGetD row "type" "explicit" }
    | _, _ => none
  | _, _ => none

/-- Model of `build_quotes(quotes_file, tokens, cluster_to_char_id,
characters)`. -/
def build_quotes (quotes_file : Option String) (tokens : List Token)
    (cluster_to_char_id : List (Int × String)) (characters : List Character) : List Quote :=
  let rows := parse_tsv_file quotes_file
  let char_id_to_name :=
    characters.foldl (fun acc c => dictInsert acc c.id c.canonical_name) []
  rows.enum.filterMap
    (fun p => parseQuoteRow tokens cluster_to_char_id char_id_to_name p.1 p.2)

/-! ## SHA-256 (model of `hashlib.sha256(...).hexdigest()`)

A direct FIPS 180-4 implementation over `Nat` with explicit `% 2^32`
reductions, applied to the UTF-8 bytes of the input string, as
`hashlib.sha256(original_text.encode("utf-8"))` does. -/

/-- 2^32. -/
def M32 : Nat := 4294967296

/-- 32-bit right rotation. -/
def rotr32 (x n : Nat) : Nat := ((x >>> n) ||| (x <<< (32 - n))) % M32

/-- UTF-8 encoding of one character, as byte values. -/
def utf8EncodeCharNat (c : Char) : List Nat :=
  let n := c.toNat
  if n < 128 then [n]
  else if n < 2048 then [192 + n / 64, 128 + n % 64]
  else if n < 65536 then [224 + n / 4096, 128 + (n / 64) % 64, 128 + n % 64]
  else [240 + n / 262144, 128 + (n / 4096) % 64, 128 + (n / 64) % 64, 128 + n % 64]

/-- UTF-8 bytes of a string. -/
def utf8Bytes (s : String) : List Nat :=
  s.data.foldr (fun c acc => utf8EncodeCharNat c ++ acc) []

/-- SHA-256 message padding: `0x80`, zeros to 56 mod 64, then the bit length
as 8 big-endian bytes. -/
def sha256Pad (msg : List Nat) : List Nat :=
  let bitLen := msg.length * 8
  let zeros := (64 + 56 - ((msg.length + 1) % 64)) % 64
  msg ++ [128] ++ List.replicate zeros 0 ++
    ((List.range 8).map (fun i => (bitLen >>> ((7 - i) * 8)) % 256))

/-- Big-endian 32-bit words from bytes. -/
def bytesToWords : List Nat → List Nat
  | b0 :: b1 :: b2 :: b3 :: rest =>
    (((b0 * 256 + b1) * 256 + b2) * 256 + b3) :: bytesToWords rest
  | _ => []

/-- Split a word list into 16-word blocks. -/
def chunks16 (ws : List Nat) : List (List Nat) :=
  if h : ws = [] then [] else ws.take 16 :: chunks16 (ws.drop 16)
termination_by ws.length
decreasing_by
  cases ws with
  | nil => exact absurd rfl h
  | cons x xs => simp; omega

/-- σ₀. -/
def smallSigma0 (x : Nat) : Nat := (rotr32 x 7) ^^^ (rotr32 x 18) ^^^ (x >>> 3)

/-- σ₁. -/
def smallSigma1 (x : Nat) : Nat := (rotr32 x 17) ^^^ (rotr32 x 19) ^^^ (x >>> 10)

/-- Σ₀. -/
def bigSigma0 (x : Nat) : Nat := (rotr32 x 2) ^^^ (rotr32 x 13) ^^^ (rotr32 x 22)

/-- Σ₁. -/
def bigSigma1 (x : Nat) : Nat := (rotr32 x 6) ^^^ (rotr32 x 11) ^^^ (rotr32 x 25)

/-- The 64 SHA-256 round constants. -/
def sha256K : List Nat :=
  [1116352408, 1899447441, 3049323471, 3921009573, 961987163, 1508970993, 2453635748, 2870763221,
   3624381080, 310598401, 607225278, 1426881987, 1925078388, 2162078206, 2614888103, 3248222580,
   3835390401, 4022224774, 264347078, 604807628, 770255983, 1249150122, 1555081692, 1996064986,
   2554220882, 2821834349, 2952996808, 3210313671, 3336571891, 3584528711, 113926993, 338241895,
   666307205, 773529912, 1294757372, 1396182291, 1695183700, 1986661051, 2177026350, 2456956037,
   2730485921, 2820302411, 3259730800, 3345764771, 3516065817, 3600352804, 4094571909, 275423344,
   430227734, 506948616, 659060556, 883997877, 958139571, 1322822218, 1537002063, 1747873779,
   1955562222, 2024104815, 2227730452, 2361852424, 2428436474, 2756734187, 3204031479, 3329325298]

/-- The SHA-256 initial hash values. -/
def sha256H0 : List Nat :=
  [1779033703, 3144134277, 1013904242, 2773480762, 1359893119, 2600822924, 528734635, 1541459225]

/-- Extend a 16-word block to the 64-word message schedule. -/
def sha256Schedule (block : List Nat) : List Nat :=
  (List.range 48).foldl
    (fun ws _ =>
      let n := ws.length
      ws ++ [(smallSigma1 (ws.getD (n - 2) 0) + ws.getD (n - 7) 0 +
              smallSigma0 (ws.getD (n - 15) 0) + ws.getD (n - 16) 0) % M32])
    block

/-- The eight SHA-256 working variables. -/
structure SHA256St where
  a : Nat
  b : Nat
  c : Nat
  d : Nat
  e : Nat
  f : Nat
  g : Nat
  h : Nat

/-- One SHA-256 round. -/
def sha256Round (st : SHA256St) (kw : Nat × Nat) : SHA256St :=
  let ch := (st.e &&& st.f) ^^^ ((st.e ^^^ 4294967295) &&& st.g)
  let maj := (st.a &&& st.b) ^^^ (st.a &&& st.c) ^^^ (st.b &&& st.c)
  let t1 := (st.h + bigSigma1 st.e + ch + kw.1 + kw.2) % M32
  let t2 := (bigSigma0 st.a + maj) % M32
  { a := (t1 + t2) % M32, b := st.a, c := st.b, d := st.c,
    e := (st.d + t1) % M32, f := st.e, g := st.f, h := st.g }

/-- Compress one 16-word block into the running hash. -/
def sha256Compress (hs : List Nat) (block : List Nat) : List Nat :=
  let ws := sha256Schedule block
  let st0 : SHA256St :=
    { a := hs.getD 0 0, b := hs.getD 1 0, c := hs.getD 2 0, d := hs.getD 3 0,
      e := hs.getD 4 0, f := hs.getD 5 0, g := hs.getD 6 0, h := hs.getD 7 0 }
  let st := (sha256K.zip ws).foldl (fun s p => sha256Round s (p.1, p.2)) st0
  [(hs.getD 0 0 + st.a) % M32, (hs.getD 1 0 + st.b) % M32, (hs.getD 2 0 + st.c) % M32,
   (hs.getD 3 0 + st.d) % M32, (hs.getD 4 0 + st.e) % M32, (hs.getD 5 0 + st.f) % M32,
   (hs.getD 6 0 + st.g) % M32, (hs.getD 7 0 + st.h) % M32]

/-- SHA-256 of a byte list: the eight 32-bit hash words. -/
def sha256Words (msg : List Nat) : List Nat :=
  (chunks16 (bytesToWords (sha256Pad msg))).foldl sha256Compress sha256H0

/-- Lower-case hex digit. -/
def hexChar (d : Nat) : Char := if d < 10 then Char.ofNat (48 + d) else Char.ofNat (87 + d)

/-- Eight hex digits of one 32-bit word, most significant first. -/
def word8Hex (w : Nat) : List Char := (List.range 8).map (fun i => hexChar ((w >>> ((7 - i) * 4)) % 16))

/-- `hashlib.sha256(s.encode("utf-8")).hexdigest()`. -/
def sha256Hex (s : String) : String :=
  String.mk (((sha256Words (utf8Bytes s)).map word8Hex).foldr (· ++ ·) [])

/-- `hashlib.sha256(...).hexdigest()[:16]`, the contract's `text_hash`. -/
def sha256Hex16 (s : String) : String := String.mk ((sha256Hex s).data.take 16)

/-! ## Contract assembler: `build_contract` -/

/-- The contract's `metadata` mapping.  The source uses a heterogeneous
`Dict[str, Any]` with exactly these keys; it is modelled as a record. -/
structure Metadata where
  booknlp_version : String
  text_length : Nat
  text_hash : String
  processing_time_seconds : Float
  token_count : Nat
  sentence_count : Int
  character_count : Nat
  mention_count : Nat
  quote_count : Nat
deriving Repr

/-- The full output document. -/
structure BookNLPContract where
  schema_version : String
  document_id : String
  metadata : Metadata
  characters : List Character
  mentions : List Mention
  coref_chains : List CorefChain
  quotes : List Quote
  tokens : List Token
deriving Repr

/-- The schema version constant. -/
def SCHEMA_VERSION : String := "1.0"

/-- `round(duration_seconds, 3)`.  (CPython rounds half to even in decimal;
this float model is approximate, which is irrelevant here: every claim
explicitly excludes the `processing_time_seconds` field.) -/
def pyRound3 (x : Float) : Float := (x * 1000).round / 1000

/-- `max((t["sentence_idx"] for t in tokens), default=0) + 1 if tokens else 0`. -/
def sentenceCount (tokens : List Token) : Int :=
  match tokens with
  | [] => 0
  | t :: ts => (ts.foldl (fun a x => max a x.sentence_idx) t.sentence_idx) + 1

/-- Model of `build_contract`.  File discovery is abstracted to one
`Option String` (file content) per expected file: the source globs
`*.tokens` and raises `ValueError` when none exists, then derives the
`.entities` and `.quotes` paths from the same prefix, reading absent files
as empty row lists. -/
def build_contract (tokens_file entities_file quotes_file : Option String)
    (output_dir document_id original_text : String) (duration_seconds : Float)
    (booknlp_version : String) : Except String BookNLPContract :=
  match tokens_file with
  | none => Except.error ("No .tokens file found in " ++ output_dir)
  | some tf =>
    let tokens := build_token_index (some tf) original_text
    let cm := build_characters_and_mentions entities_file tokens
    let characters := cm.1
    let mentions := cm.2.1
    let cluster_to_char_id := cm.2.2
    let coref_chains := build_coref_chains mentions cluster_to_char_id
    let quotes := build_quotes quotes_file tokens cluster_to_char_id characters
    let text_hash := sha256Hex16 original_text
    Except.ok
      { schema_version := SCHEMA_VERSION,
        document_id := document_id,
        metadata :=
          { booknlp_version := booknlp_version,
            text_length := original_text.data.length,
            text_hash := text_hash,
            processing_time_seconds := pyRound3 duration_seconds,
            token_count := tokens.length,
            sentence_count := sentenceCount tokens,
            character_count := characters.length,
            mention_count := mentions.length,
            quote_count := quotes.length },
        characters := characters,
        mentions := mentions,
        coref_chains := coref_chains,
        quotes := quotes,
        tokens := tokens }

/-! ## Derived definitions used by the verification -/

/-- First-encounter-ordered key accumulation: the key order produced by the
group-by folds (`defaultdict` insertion order). -/
def insKeys {κ : Type} [DecidableEq κ] (ks : List κ) (new : List κ) : List κ :=
  new.foldl (fun acc k => if k ∈ acc then acc else acc ++ [k]) ks

/-- The group-by fold shared by `cluster_mentions` and `chains_by_char`. -/
def groupFold {κ α : Type} [DecidableEq κ] (l : List (κ × α)) (acc : List (κ × List α)) :
    List (κ × List α) :=
  l.foldl (fun g p => dictAppend g p.1 p.2) acc

/-- The values a group-by fold collects for one key: the second components
of the pairs with that key, in order. -/
def sel {κ α : Type} [DecidableEq κ] (l : List (κ × α)) (k : κ) : List α :=
  (l.filter (fun p => p.1 = k)).map Prod.snd

/-- Clearing the position index of a token (the only field the
`build_token_index` loop assigns itself). -/
def stripIdx (t : Token) : Token := { t with idx := 0 }


/-- A token row whose two byte-offset fields, when they parse at all, are
non-negative and ordered.  (The hypothesis of the amended offset claim.) -/
def rowOffsetsOrdered (row : Row) : Prop :=
  match pyInt? (rowGetD row "byte_onset" "0"), pyInt? (rowGetD row "byte_offset" "0") with
  | some a, some b => 0 ≤ a ∧ a ≤ b
  | _, _ => True

instance (row : Row) : Decidable (rowOffsetsOrdered row) := by
  unfold rowOffsetsOrdered
  cases h1 : pyInt? (rowGetD row "byte_onset" "0") <;>
    cases h2 : pyInt? (rowGetD row "byte_offset" "0") <;>
      infer_instance

/-- The Mention list the entity loop produces: the per-row parser mapped
over `enumerate(rows)`, dropped rows omitted. -/
def entityMentions (tokens : List Token) (rows : List Row) : List Mention :=
  rows.enum.filterMap (fun p => (parseEntityRow tokens p.1 p.2).map Prod.fst)

/-- The stream of (cluster id, entry) pairs the entity loop feeds into
`cluster_mentions`, in row order. -/
def entityClusterStream (tokens : List Token) (rows : List Row) : List (Int × ClusterEntry) :=
  rows.enum.filterMap (fun p => (parseEntityRow tokens p.1 p.2).bind Prod.snd)

/-- The cluster's entries in row order: what `cluster_mentions[cid]` holds
at the end of the loop. -/
def clusterEntriesSpec (tokens : List Token) (rows : List Row) (cid : Int) : List ClusterEntry :=
  sel (entityClusterStream tokens rows) cid

/-- The stream of (character id, mention id) pairs the chain fold groups,
in mention order (Python truthiness: `None` and `""` are skipped). -/
def chainStream (mentions : List Mention) : List (String × String) :=
  mentions.filterMap (fun m =>
    match m.character_id with
    | some s => if s = "" then none else some (s, m.id)
    | none => none)

/-- The last non-empty string of a list, if any: the specification of the
source's last-truthy-wins canonical-name fold. -/
def lastNonEmpty : List String → Option String
  | [] => none
  | s :: rest =>
    match lastNonEmpty rest with
    | some t => some t
    | none => if s ≠ "" then some s else none

/-- A contract with the `processing_time_seconds` field cleared: the
comparison modulus of the determinism claim. -/
def stripTime (c : BookNLPContract) : BookNLPContract :=
  { c with metadata := { c.metadata with processing_time_seconds := 0 } }

/-! # Proof development -/

/-! ## Association-list dictionary lemmas -/

theorem dictFind?_eq_none_iff {κ α : Type} [DecidableEq κ] (l : List (κ × α)) (k : κ) :
    dictFind? l k = none ↔ k ∉ l.map Prod.fst := by
  induction l with
  | nil => simp [dictFind?]
  | cons p rest ih =>
    obtain ⟨k', v⟩ := p
    by_cases h : k' = k
    · subst h
      simp [dictFind?]
    · rw [List.map_cons, List.mem_cons]
      simp only [dictFind?, if_neg h, ih]
      constructor
      · intro hn hor
        rcases hor with rfl | hmem
        · exact h rfl
        · exact hn hmem
      · intro hn hmem
        exact hn (Or.inr hmem)

theorem dictFind?_mem {κ α : Type} [DecidableEq κ] {l : List (κ × α)} {k : κ} {v : α}
    (h : dictFind? l k = some v) : (k, v) ∈ l := by
  induction l with
  | nil => simp [dictFind?] at h
  | cons p rest ih =>
    obtain ⟨k', v'⟩ := p
    by_cases hk : k' = k
    · subst hk
      simp only [dictFind?, eq_self_iff_true, if_true, Option.some.injEq] at h
      subst h
      exact List.mem_cons_self _ _
    · simp only [dictFind?, if_neg hk] at h
      exact List.mem_cons_of_mem _ (ih h)

theorem dictFind?_of_mem_nodup {κ α : Type} [DecidableEq κ] {l : List (κ × α)}
    (hnd : (l.map Prod.fst).Nodup) {k : κ} {v : α} (hmem : (k, v) ∈ l) :
    dictFind? l k = some v := by
  induction l with
  | nil => simp at hmem
  | cons p rest ih =>
    obtain ⟨k', v'⟩ := p
    simp only [List.map_cons, List.nodup_cons] at hnd
    rcases List.mem_cons.mp hmem with heq | hmem'
    · injection heq with h1 h2
      subst h1
      subst h2
      simp [dictFind?]
    · have hk : k' ≠ k := by
        intro hh
        subst hh
        exact hnd.1 (List.mem_map_of_mem Prod.fst hmem')
      simp only [dictFind?, if_neg hk]
      exact ih hnd.2 hmem'

theorem dictFind?_dictInsert_self {κ α : Type} [DecidableEq κ] (l : List (κ × α)) (k : κ) (v : α) :
    dictFind? (dictInsert l k v) k = some v := by
  induction l with
  | nil => simp [dictInsert, dictFind?]
  | cons p rest ih =>
    obtain ⟨k', v'⟩ := p
    by_cases h : k' = k <;> simp [dictInsert, dictFind?, h, ih]

theorem dictFind?_dictInsert_ne {κ α : Type} [DecidableEq κ] (l : List (κ × α)) (k k' : κ) (v : α)
    (h : k' ≠ k) : dictFind? (dictInsert l k v) k' = dictFind? l k' := by
  have h' : ¬(k = k') := fun hh => h hh.symm
  induction l with
  | nil => simp [dictInsert, dictFind?, h']
  | cons p rest ih =>
    obtain ⟨k'', v''⟩ := p
    by_cases hk : k'' = k
    · subst hk
      simp [dictInsert, dictFind?, h']
    · simp [dictInsert, dictFind?, hk, ih]

theorem keys_dictInsert {κ α : Type} [DecidableEq κ] (l : List (κ × α)) (k : κ) (v : α) :
    (dictInsert l k v).map Prod.fst =
      if k ∈ l.map Prod.fst then l.map Prod.fst else l.map Prod.fst ++ [k] := by
  induction l with
  | nil => simp [dictInsert]
  | cons p rest ih =>
    obtain ⟨k', v'⟩ := p
    by_cases h : k' = k
    · subst h
      simp [dictInsert]
    · have h' : ¬(k = k') := fun hh => h hh.symm
      by_cases hmem : k ∈ rest.map Prod.fst <;>
        simp [dictInsert, h, ih, hmem, h']

theorem dictFind?_dictAppend_self {κ α : Type} [DecidableEq κ] (l : List (κ × List α))
    (k : κ) (v : α) :
    dictFind? (dictAppend l k v) k = some ((dictFind? l k).getD [] ++ [v]) := by
  induction l with
  | nil => simp [dictAppend, dictFind?]
  | cons p rest ih =>
    obtain ⟨k', vs⟩ := p
    by_cases h : k' = k <;> simp [dictAppend, dictFind?, h, ih]

theorem dictFind?_dictAppend_ne {κ α : Type} [DecidableEq κ] (l : List (κ × List α))
    (k k' : κ) (v : α) (h : k' ≠ k) :
    dictFind? (dictAppend l k v) k' = dictFind? l k' := by
  have h' : ¬(k = k') := fun hh => h hh.symm
  induction l with
  | nil => simp [dictAppend, dictFind?, h']
  | cons p rest ih =>
    obtain ⟨k'', vs⟩ := p
    by_cases hk : k'' = k
    · subst hk
      simp [dictAppend, dictFind?, h']
    · simp [dictAppend, dictFind?, hk, ih]

theorem keys_dictAppend {κ α : Type} [DecidableEq κ] (l : List (κ × List α)) (k : κ) (v : α) :
    (dictAppend l k v).map Prod.fst =
      if k ∈ l.map Prod.fst then l.map Prod.fst else l.map Prod.fst ++ [k] := by
  induction l with
  | nil => simp [dictAppend]
  | cons p rest ih =>
    obtain ⟨k', vs⟩ := p
    by_cases h : k' = k
    · subst h
      simp [dictAppend]
    · have h' : ¬(k = k') := fun hh => h hh.symm
      by_cases hmem : k ∈ rest.map Prod.fst <;>
        simp [dictAppend, h, ih, hmem, h']

/-! ## Insertion-ordered group-by folds -/


theorem insKeys_cons {κ : Type} [DecidableEq κ] (ks : List κ) (a : κ) (t : List κ) :
    insKeys ks (a :: t) = insKeys (if a ∈ ks then ks else ks ++ [a]) t := rfl

theorem mem_insKeys {κ : Type} [DecidableEq κ] (ks new : List κ) (k : κ) :
    k ∈ insKeys ks new ↔ k ∈ ks ∨ k ∈ new := by
  induction new generalizing ks with
  | nil => simp [insKeys]
  | cons a t ih =>
    rw [insKeys_cons]
    by_cases h : a ∈ ks
    · rw [if_pos h, ih]
      simp only [List.mem_cons]
      constructor
      · rintro (hk | hk)
        · exact Or.inl hk
        · exact Or.inr (Or.inr hk)
      · rintro (hk | rfl | hk)
        · exact Or.inl hk
        · exact Or.inl h
        · exact Or.inr hk
    · rw [if_neg h, ih]
      constructor
      · rintro (hk | hk)
        · rcases List.mem_append.mp hk with hk' | hk'
          · exact Or.inl hk'
          · exact Or.inr (List.mem_cons.mpr (Or.inl (List.mem_singleton.mp hk')))
        · exact Or.inr (List.mem_cons.mpr (Or.inr hk))
      · rintro (hk | hk)
        · exact Or.inl (List.mem_append.mpr (Or.inl hk))
        · rcases List.mem_cons.mp hk with rfl | hk'
          · exact Or.inl (List.mem_append.mpr (Or.inr (List.mem_singleton.mpr rfl)))
          · exact Or.inr hk'

theorem insKeys_nodup {κ : Type} [DecidableEq κ] {ks : List κ} (new : List κ)
    (h : ks.Nodup) : (insKeys ks new).Nodup := by
  induction new generalizing ks with
  | nil => exact h
  | cons a t ih =>
    rw [insKeys_cons]
    by_cases ha : a ∈ ks
    · rw [if_pos ha]
      exact ih h
    · rw [if_neg ha]
      refine ih ?_
      simp [List.nodup_append, h, ha]


theorem groupFold_cons {κ α : Type} [DecidableEq κ] (p : κ × α) (t : List (κ × α))
    (acc : List (κ × List α)) :
    groupFold (p :: t) acc = groupFold t (dictAppend acc p.1 p.2) := rfl


theorem keys_groupFold {κ α : Type} [DecidableEq κ] (l : List (κ × α))
    (acc : List (κ × List α)) :
    (groupFold l acc).map Prod.fst = insKeys (acc.map Prod.fst) (l.map Prod.fst) := by
  induction l generalizing acc with
  | nil => rfl
  | cons p t ih =>
    rw [groupFold_cons, ih, keys_dictAppend, List.map_cons, insKeys_cons]

theorem nodup_keys_groupFold {κ α : Type} [DecidableEq κ] (l : List (κ × α))
    {acc : List (κ × List α)} (h : (acc.map Prod.fst).Nodup) :
    ((groupFold l acc).map Prod.fst).Nodup := by
  rw [keys_groupFold]
  exact insKeys_nodup _ h

theorem dictFind?_groupFold {κ α : Type} [DecidableEq κ] (l : List (κ × α))
    (acc : List (κ × List α)) (k : κ) :
    dictFind? (groupFold l acc) k =
      match dictFind? acc k with
      | some vs => some (vs ++ sel l k)
      | none => if k ∈ l.map Prod.fst then some (sel l k) else none := by
  induction l generalizing acc with
  | nil => cases h : dictFind? acc k <;> simp [groupFold, sel, h]
  | cons p t ih =>
    obtain ⟨k₀, v₀⟩ := p
    rw [groupFold_cons, ih]
    by_cases hk : k = k₀
    · subst hk
      rw [dictFind?_dictAppend_self]
      cases h : dictFind? acc k with
      | some vs => simp [sel, h, List.filter_cons]
      | none => simp [sel, h, List.filter_cons]
    · rw [dictFind?_dictAppend_ne _ _ _ _ hk]
      have hk' : ¬(k₀ = k) := fun hh => hk hh.symm
      have hsel : sel ((k₀, v₀) :: t) k = sel t k := by
        simp [sel, List.filter_cons, hk']
      cases h : dictFind? acc k with
      | some vs => simp [h, hsel]
      | none =>
        simp only [h, hsel, List.map_cons]
        by_cases hmem : k ∈ List.map Prod.fst t
        · rw [if_pos hmem, if_pos (List.mem_cons_of_mem _ hmem)]
        · rw [if_neg hmem, if_neg (fun hc => (List.mem_cons.mp hc).elim hk hmem)]

/-- Specialization to the empty accumulator both pipeline folds start from. -/
theorem dictFind?_groupFold_nil {κ α : Type} [DecidableEq κ] (l : List (κ × α)) (k : κ) :
    dictFind? (groupFold l []) k =
      if k ∈ l.map Prod.fst then some (sel l k) else none := by
  rw [dictFind?_groupFold]
  rfl

/-! ## Injectivity of the decimal rendering -/

theorem decDigitsGo_eq (fuel : Nat) : ∀ n : Nat, n ≤ fuel →
    decDigitsGo fuel n = ((Nat.digits 10 n).map digitChar).reverse := by
  induction fuel with
  | zero =>
    intro n h
    interval_cases n
    simp [decDigitsGo]
  | succ fuel ih =>
    intro n h
    by_cases hn : n = 0
    · subst hn
      simp [decDigitsGo]
    · have hpos : 0 < n := Nat.pos_of_ne_zero hn
      have hdiv : n / 10 < n := Nat.div_lt_self hpos (by norm_num)
      rw [decDigitsGo, if_neg hn, ih (n / 10) (by omega),
        Nat.digits_def' (by norm_num : (1 : Nat) < 10) hpos]
      simp

theorem digitChar_inj {a b : Nat} (ha : a < 10) (hb : b < 10)
    (h : digitChar a = digitChar b) : a = b := by
  interval_cases a <;> interval_cases b <;> first | rfl | exact absurd h (by decide)

theorem map_digitChar_inj : ∀ (l₁ l₂ : List Nat), (∀ d ∈ l₁, d < 10) → (∀ d ∈ l₂, d < 10) →
    l₁.map digitChar = l₂.map digitChar → l₁ = l₂
  | [], [], _, _, _ => rfl
  | [], _ :: _, _, _, h => by simp at h
  | _ :: _, [], _, _, h => by simp at h
  | a :: t₁, b :: t₂, h₁, h₂, h => by
    simp only [List.map_cons, List.cons.injEq] at h
    have hab : a = b :=
      digitChar_inj (h₁ a (List.mem_cons_self a t₁)) (h₂ b (List.mem_cons_self b t₂)) h.1
    have ht : t₁ = t₂ :=
      map_digitChar_inj t₁ t₂ (fun d hd => h₁ d (List.mem_cons_of_mem _ hd))
        (fun d hd => h₂ d (List.mem_cons_of_mem _ hd)) h.2
    rw [hab, ht]

theorem decRepr_digits (n : Nat) (hn : n ≠ 0) :
    decRepr n = String.mk (((Nat.digits 10 n).map digitChar).reverse) := by
  rw [decRepr, if_neg hn, decDigitsGo_eq n n (le_refl n)]

theorem decRepr_ne_zero_str (b : Nat) (hb : b ≠ 0) : decRepr b ≠ "0" := by
  intro h
  rw [decRepr_digits b hb] at h
  have hdata : ((Nat.digits 10 b).map digitChar).reverse = ['0'] :=
    congrArg String.data h
  have hmap : (Nat.digits 10 b).map digitChar = ['0'] := by
    rw [← List.reverse_reverse (List.map digitChar (Nat.digits 10 b)), hdata]
    rfl
  obtain ⟨d, hd, hmapd⟩ : ∃ d, Nat.digits 10 b = [d] ∧ digitChar d = '0' := by
    cases hdig : Nat.digits 10 b with
    | nil => rw [hdig] at hmap; simp at hmap
    | cons d t =>
      rw [hdig] at hmap
      simp only [List.map_cons, List.cons.injEq] at hmap
      cases t with
      | nil => exact ⟨d, rfl, hmap.1⟩
      | cons d' t' => simp at hmap
  have hdlt : d < 10 := Nat.digits_lt_base (by norm_num) (hd ▸ List.mem_singleton.mpr rfl)
  have hd0 : d = 0 := digitChar_inj hdlt (by norm_num) hmapd
  refine hb ?_
  have := Nat.ofDigits_digits 10 b
  rw [hd, hd0] at this
  simpa [Nat.ofDigits] using this.symm

theorem decRepr_inj : Function.Injective decRepr := by
  intro a b h
  by_cases ha : a = 0 <;> by_cases hb : b = 0
  · rw [ha, hb]
  · subst ha
    rw [show decRepr 0 = "0" from rfl] at h
    exact absurd h.symm (decRepr_ne_zero_str b hb)
  · subst hb
    rw [show decRepr 0 = "0" from rfl] at h
    exact absurd h (decRepr_ne_zero_str a ha)
  · rw [decRepr_digits a ha, decRepr_digits b hb] at h
    have hdata := congrArg String.data h
    have hrev : (Nat.digits 10 a).map digitChar = (Nat.digits 10 b).map digitChar :=
      List.reverse_injective hdata
    have hdig : Nat.digits 10 a = Nat.digits 10 b :=
      map_digitChar_inj _ _ (fun d hd => Nat.digits_lt_base (by norm_num) hd)
        (fun d hd => Nat.digits_lt_base (by norm_num) hd) hrev
    exact Nat.digits_inj_iff.mp hdig

theorem charIdOf_inj {a b : Int} (ha : 0 ≤ a) (hb : 0 ≤ b) (h : charIdOf a = charIdOf b) :
    a = b := by
  have hdata := congrArg String.data h
  simp only [charIdOf, String.data_append] at hdata
  have : (decRepr a.toNat).data = (decRepr b.toNat).data :=
    List.append_cancel_left hdata
  have hrepr : decRepr a.toNat = decRepr b.toNat := String.ext this
  have := decRepr_inj hrepr
  omega

theorem charIdOf_ne_empty (c : Int) : charIdOf c ≠ "" := by
  intro h
  have hdata := congrArg String.data h
  simp [charIdOf, String.data_append] at hdata

/-! ## Token indexer lemmas -/


theorem parseTokenRow_idx {row : Row} {t : Token} (h : parseTokenRow row = some t) :
    t.idx = 0 := by
  unfold parseTokenRow at h
  split at h
  · injection h with h'
    rw [← h']
  · exact absurd h (by simp)

theorem stripIdx_of_parse {row : Row} {t : Token} (h : parseTokenRow row = some t) :
    stripIdx t = t := by
  have h0 := parseTokenRow_idx h
  cases t
  simp only [stripIdx]
  simp_all

theorem btiGo_cons_none {r : Row} (rs : List Row) (acc : List Token)
    (hp : parseTokenRow r = none) : btiGo (r :: rs) acc = btiGo rs acc := by
  simp only [btiGo]
  rw [hp]

theorem btiGo_cons_some {r : Row} {t : Token} (rs : List Row) (acc : List Token)
    (hp : parseTokenRow r = some t) :
    btiGo (r :: rs) acc = btiGo rs (acc ++ [{ t with idx := acc.length }]) := by
  simp only [btiGo]
  rw [hp]

theorem btiGo_idx (rows : List Row) : ∀ (acc : List Token),
    (∀ j (hj : j < acc.length), (acc.get ⟨j, hj⟩).idx = j) →
    ∀ j (hj : j < (btiGo rows acc).length), ((btiGo rows acc).get ⟨j, hj⟩).idx = j := by
  induction rows with
  | nil => intro acc hacc; exact hacc
  | cons r rs ih =>
    intro acc hacc
    cases hp : parseTokenRow r with
    | none =>
      rw [btiGo_cons_none rs acc hp]
      exact ih acc hacc
    | some t =>
      rw [btiGo_cons_some rs acc hp]
      refine ih _ ?_
      intro j hj
      rw [List.length_append, List.length_singleton] at hj
      rcases Nat.lt_or_ge j acc.length with hlt | hge
      · rw [List.get_eq_getElem, List.getElem_append_left hlt]
        exact hacc j hlt
      · have hj' : j = acc.length := by omega
        subst hj'
        rw [List.get_eq_getElem, List.getElem_concat_length _ _ _ rfl]

theorem btiGo_strip (rows : List Row) : ∀ (acc : List Token),
    (btiGo rows acc).map stripIdx = acc.map stripIdx ++ rows.filterMap parseTokenRow := by
  induction rows with
  | nil => intro acc; simp [btiGo]
  | cons r rs ih =>
    intro acc
    cases hp : parseTokenRow r with
    | none => rw [btiGo_cons_none rs acc hp, ih, List.filterMap_cons_none hp]
    | some t =>
      rw [btiGo_cons_some rs acc hp, ih, List.filterMap_cons_some hp, List.map_append]
      simp only [List.map_cons, List.map_nil, List.append_assoc]
      have hstrip : stripIdx { t with idx := acc.length } = t := by
        have h0 := parseTokenRow_idx hp
        cases t
        simp only [stripIdx] at h0 ⊢
        simp_all
      rw [hstrip]
      rfl

/-! ## Claim C9: token indexer positional indexing -/

/-- C9: for every token table, tokens are emitted in row order with rows
whose numeric fields fail to parse silently dropped (`map stripIdx`
equals the order-preserving `filterMap` of the per-row parser over the
parsed rows), and each emitted Token's `idx` equals its position in the
resulting sequence, so the `idx` values are exactly `0, 1, 2, ...`
(strictly increasing, no duplicates) and are not taken from any ID in the
source row. -/
theorem C9_token_positional_indexing (tokens_file : Option String) (text : String) :
    (∀ j (hj : j < (build_token_index tokens_file text).length),
        ((build_token_index tokens_file text).get ⟨j, hj⟩).idx = j) ∧
    (build_token_index tokens_file text).map stripIdx =
      (parse_tsv_file tokens_file).filterMap parseTokenRow ∧
    (build_token_index tokens_file text).map Token.idx =
      List.range (build_token_index tokens_file text).length := by
  have hidx := btiGo_idx (parse_tsv_file tokens_file) []
    (by intro j hj; simp at hj)
  refine ⟨hidx, ?_, ?_⟩
  · rw [build_token_index, btiGo_strip]
    rfl
  · apply List.ext_getElem
    · simp
    · intro i h1 h2
      rw [List.getElem_map, List.getElem_range]
      have hi : i < (build_token_index tokens_file text).length := by
        simpa using h1
      have := hidx i hi
      rw [List.get_eq_getElem] at this
      exact this

/-- C9 witness: on a concrete three-row token table whose middle row has an
unparsable offset, the second emitted token (position 1) has `idx = 1`. -/
theorem C9_token_positional_indexing_witness :
    ((build_token_index
        (some "word\tbyte_onset\tbyte_offset\tsentence_id\tparagraph_id\nTom\t0\t3\t0\t0\nbad\tx\t9\t0\t0\nran\t4\t7\t0\t0")
        "").get ⟨1, by decide⟩).idx = 1 :=
  (C9_token_positional_indexing
      (some "word\tbyte_onset\tbyte_offset\tsentence_id\tparagraph_id\nTom\t0\t3\t0\t0\nbad\tx\t9\t0\t0\nran\t4\t7\t0\t0")
      "").1 1 (by decide)

/-! ## Claim C5: token offset invariant (corrected) -/

/-- C5 counterexample: the Token Indexer performs no validation of the
parsed offsets, so a token row whose `byte_onset` exceeds its `byte_offset`
(here onset 5, offset 3) produces a Token with `end_char < start_char`,
falsifying the claim as stated. -/
theorem C5_token_offsets_counterexample :
    ¬ (∀ t ∈ build_token_index
        (some "word\tbyte_onset\tbyte_offset\tsentence_id\tparagraph_id\nfoo\t5\t3\t0\t0") "",
        0 ≤ t.start_char ∧ t.start_char ≤ t.end_char) := by
  decide

/-- C5 amended: offsets are copied unvalidated from the source rows, so the
invariant holds exactly when every row's parsed `byte_onset`/`byte_offset`
pair is non-negative and ordered: under that hypothesis every produced
Token satisfies `0 ≤ start_char ≤ end_char`. -/
theorem C5_token_offsets_amended (tokens_file : Option String) (text : String)
    (hrows : ∀ row ∈ parse_tsv_file tokens_file, rowOffsetsOrdered row) :
    ∀ t ∈ build_token_index tokens_file text,
      0 ≤ t.start_char ∧ t.start_char ≤ t.end_char := by
  intro t ht
  have hmem : stripIdx t ∈ (build_token_index tokens_file text).map stripIdx :=
    List.mem_map_of_mem _ ht
  rw [build_token_index, btiGo_strip] at hmem
  simp only [List.map_nil, List.nil_append] at hmem
  obtain ⟨row, hrow, hparse⟩ := List.mem_filterMap.mp hmem
  unfold parseTokenRow at hparse
  split at hparse
  case _ bs be si pg h1 h2 h3 h4 =>
    injection hparse with hparse
    have hbs : (stripIdx t).start_char = bs := by rw [← hparse]
    have hbe : (stripIdx t).end_char = be := by rw [← hparse]
    have hst : (stripIdx t).start_char = t.start_char := rfl
    have hen : (stripIdx t).end_char = t.end_char := rfl
    have hro := hrows row hrow
    simp only [rowOffsetsOrdered, h1, h2] at hro
    rw [hst] at hbs
    rw [hen] at hbe
    rw [hbs, hbe]
    exact hro
  case _ => exact absurd hparse (by simp)

/-- C5 witness: the amended theorem applied to a concrete well-formed token
table. -/
theorem C5_token_offsets_amended_witness :
    0 ≤ (⟨0, "Tom", "Tom", "", "O", 0, 3, 0, 0⟩ : Token).start_char ∧
      (⟨0, "Tom", "Tom", "", "O", 0, 3, 0, 0⟩ : Token).start_char ≤
        (⟨0, "Tom", "Tom", "", "O", 0, 3, 0, 0⟩ : Token).end_char :=
  C5_token_offsets_amended
    (some "word\tbyte_onset\tbyte_offset\tsentence_id\tparagraph_id\nTom\t0\t3\t0\t0") ""
    (by decide) ⟨0, "Tom", "Tom", "", "O", 0, 3, 0, 0⟩ (by decide)

/-! ## Claim C4: determinism of the contract build -/

/-- C4: two invocations of `build_contract` on identical input files with
the same document id and original text (and the same tool version and
output directory), but arbitrary measured durations, produce the same
result in every field except `metadata.processing_time_seconds` — stated
as equality after clearing that one field. -/
theorem C4_contract_determinism (tokens_file entities_file quotes_file : Option String)
    (output_dir document_id original_text : String) (booknlp_version : String)
    (dur1 dur2 : Float) :
    (build_contract tokens_file entities_file quotes_file output_dir document_id
        original_text dur1 booknlp_version).map stripTime =
    (build_contract tokens_file entities_file quotes_file output_dir document_id
        original_text dur2 booknlp_version).map stripTime := by
  cases tokens_file <;> rfl

/-! ## Claim C7: fatal versus recoverable error model -/

/-- C7: `build_contract` fails if and only if the token table file is
absent: with no token file every invocation returns an error, and with any
token file content it returns a contract; an absent quote table yields
`quotes = []` and an absent entity table yields empty characters, mentions
and chains rather than an error. -/
theorem C7_fatal_iff_token_table_absent (entities_file quotes_file : Option String)
    (output_dir document_id original_text : String) (dur : Float)
    (booknlp_version : String) (tokens_content : String) :
    (∀ c, build_contract none entities_file quotes_file output_dir document_id
        original_text dur booknlp_version ≠ Except.ok c) ∧
    (∃ c, build_contract (some tokens_content) entities_file quotes_file output_dir
        document_id original_text dur booknlp_version = Except.ok c ∧
      (quotes_file = none → c.quotes = []) ∧
      (entities_file = none →
        c.characters = [] ∧ c.mentions = [] ∧ c.coref_chains = [])) := by
  constructor
  · intro c hc
    simp [build_contract] at hc
  · refine ⟨_, rfl, ?_, ?_⟩
    · rintro rfl
      rfl
    · rintro rfl
      exact ⟨rfl, rfl, rfl⟩

/-- C7 witness: with a concrete token table and both optional files absent,
the build succeeds and all optional collections are empty. -/
theorem C7_fatal_iff_token_table_absent_witness :
    ∃ c, build_contract
        (some "word\tbyte_onset\tbyte_offset\tsentence_id\tparagraph_id\nTom\t0\t3\t0\t0")
        none none "out" "doc" "Tom ran" 1.0 "1.0.8" = Except.ok c ∧
      c.quotes = [] ∧ c.characters = [] ∧ c.mentions = [] ∧ c.coref_chains = [] := by
  obtain ⟨-, c, hc, hq, he⟩ := C7_fatal_iff_token_table_absent none none "out" "doc"
    "Tom ran" 1.0 "1.0.8"
    "word\tbyte_onset\tbyte_offset\tsentence_id\tparagraph_id\nTom\t0\t3\t0\t0"
  obtain ⟨h1, h2, h3⟩ := he rfl
  exact ⟨c, hc, hq rfl, h1, h2, h3⟩

/-! ## Entity resolver loop characterization -/

theorem bcmGo_cons_none {tokens : List Token} {i : Nat} {row : Row}
    (rest : List (Nat × Row)) (st : BCMState)
    (hp : parseEntityRow tokens i row = none) :
    bcmGo tokens ((i, row) :: rest) st = bcmGo tokens rest st := by
  simp only [bcmGo]
  rw [hp]

theorem bcmGo_cons_some_none {tokens : List Token} {i : Nat} {row : Row} {m : Mention}
    (rest : List (Nat × Row)) (st : BCMState)
    (hp : parseEntityRow tokens i row = some (m, none)) :
    bcmGo tokens ((i, row) :: rest) st =
      bcmGo tokens rest { st with mentions := st.mentions ++ [m] } := by
  simp only [bcmGo]
  rw [hp]

theorem bcmGo_cons_some_some {tokens : List Token} {i : Nat} {row : Row} {m : Mention}
    {c : Int} {e : ClusterEntry} (rest : List (Nat × Row)) (st : BCMState)
    (hp : parseEntityRow tokens i row = some (m, some (c, e))) :
    bcmGo tokens ((i, row) :: rest) st =
      bcmGo tokens rest
        { clusterMentions := dictAppend st.clusterMentions c e,
          mentions := st.mentions ++ [m],
          clusterToCharId := dictInsert st.clusterToCharId c (charIdOf c) } := by
  simp only [bcmGo]
  rw [hp]

theorem bcmGo_mentions (tokens : List Token) (l : List (Nat × Row)) : ∀ st : BCMState,
    (bcmGo tokens l st).mentions =
      st.mentions ++ l.filterMap (fun p => (parseEntityRow tokens p.1 p.2).map Prod.fst) := by
  induction l with
  | nil => intro st; simp [bcmGo]
  | cons p t ih =>
    intro st
    obtain ⟨i, row⟩ := p
    cases hp : parseEntityRow tokens i row with
    | none =>
      rw [bcmGo_cons_none t st hp, ih st, List.filterMap_cons_none (by rw [hp]; rfl)]
    | some res =>
      obtain ⟨m, cl⟩ := res
      cases cl with
      | none =>
        rw [bcmGo_cons_some_none t st hp, ih _,
          List.filterMap_cons_some (by rw [hp]; rfl)]
        simp
      | some ce =>
        obtain ⟨c, e⟩ := ce
        rw [bcmGo_cons_some_some t st hp, ih _,
          List.filterMap_cons_some (by rw [hp]; rfl)]
        simp

theorem bcmGo_clusters (tokens : List Token) (l : List (Nat × Row)) : ∀ st : BCMState,
    (bcmGo tokens l st).clusterMentions =
      groupFold (l.filterMap (fun p => (parseEntityRow tokens p.1 p.2).bind Prod.snd))
        st.clusterMentions := by
  induction l with
  | nil => intro st; simp [bcmGo, groupFold]
  | cons p t ih =>
    intro st
    obtain ⟨i, row⟩ := p
    cases hp : parseEntityRow tokens i row with
    | none =>
      rw [bcmGo_cons_none t st hp, ih st, List.filterMap_cons_none (by rw [hp]; rfl)]
    | some res =>
      obtain ⟨m, cl⟩ := res
      cases cl with
      | none =>
        rw [bcmGo_cons_some_none t st hp, ih _,
          List.filterMap_cons_none (by rw [hp]; rfl)]
      | some ce =>
        obtain ⟨c, e⟩ := ce
        rw [bcmGo_cons_some_some t st hp, ih _,
          List.filterMap_cons_some (by rw [hp]; rfl), groupFold_cons]

theorem bcm_mentions_eq (entities_file : Option String) (tokens : List Token) :
    (build_characters_and_mentions entities_file tokens).2.1 =
      entityMentions tokens (parse_tsv_file entities_file) := by
  simp only [build_characters_and_mentions, entityMentions]
  rw [bcmGo_mentions]
  rfl

theorem bcm_characters_eq (entities_file : Option String) (tokens : List Token) :
    (build_characters_and_mentions entities_file tokens).1 =
      (groupFold (entityClusterStream tokens (parse_tsv_file entities_file)) []).map
        (fun p => mkCharacter p.1 p.2) := by
  simp only [build_characters_and_mentions, entityClusterStream]
  rw [bcmGo_clusters]

/-- Inversion of the entity row parser: a kept row yields a mention whose
id is derived from the row index, and either a non-negative cluster id with
matching `char_{c}` back-link and a cluster entry, or (negative cluster id)
a null character id and no cluster entry. -/
theorem parseEntityRow_inv {tokens : List Token} {i : Nat} {row : Row} {m : Mention}
    {cl : Option (Int × ClusterEntry)}
    (h : parseEntityRow tokens i row = some (m, cl)) :
    m.id = "mention_" ++ decRepr i ∧
    ((∃ c : Int, 0 ≤ c ∧ m.character_id = some (charIdOf c) ∧ ∃ e, cl = some (c, e)) ∨
      (m.character_id = none ∧ cl = none)) := by
  unfold parseEntityRow at h
  split at h
  case _ coref startTok endTok h1 h2 h3 =>
    split at h
    case _ sc ec si h4 h5 h6 =>
      injection h with h
      injection h with hm hcl
      subst hm
      refine ⟨rfl, ?_⟩
      by_cases hc : (0 : Int) ≤ coref
      · left
        refine ⟨coref, hc, by simp [hc], ?_⟩
        rw [← hcl, if_pos hc]
        exact ⟨_, rfl⟩
      · right
        exact ⟨by simp [hc], by rw [← hcl]; simp [hc]⟩
    case _ => exact absurd h (by simp)
  case _ => exact absurd h (by simp)

/-! ## Cluster stream and character-count lemmas -/

theorem mkCharacter_id (cluster_id : Int) (data : List ClusterEntry) :
    (mkCharacter cluster_id data).id = charIdOf cluster_id := rfl

theorem mkCharacter_mention_count (cluster_id : Int) (data : List ClusterEntry) :
    (mkCharacter cluster_id data).mention_count = data.length := rfl

theorem entityClusterStream_nonneg (tokens : List Token) (rows : List Row) :
    ∀ p ∈ entityClusterStream tokens rows, 0 ≤ p.1 := by
  intro p hp
  obtain ⟨⟨i, row⟩, hmem, hbind⟩ := List.mem_filterMap.mp hp
  rw [Option.bind_eq_some] at hbind
  obtain ⟨⟨m, cl⟩, hparse, hsnd⟩ := hbind
  obtain ⟨-, hdich⟩ := parseEntityRow_inv hparse
  rcases hdich with ⟨c, hc, -, e, hcl⟩ | ⟨-, hcl⟩
  · subst hcl
    simp only at hsnd
    injection hsnd with hsnd
    rw [← hsnd]
    exact hc
  · subst hcl
    simp at hsnd

theorem clusterGroups_keys_nonneg (tokens : List Token) (rows : List Row) :
    ∀ k ∈ (groupFold (entityClusterStream tokens rows) []).map Prod.fst, 0 ≤ k := by
  intro k hk
  rw [keys_groupFold] at hk
  rcases (mem_insKeys _ _ _).mp hk with h | h
  · simp at h
  · obtain ⟨p, hp, rfl⟩ := List.mem_map.mp h
    exact entityClusterStream_nonneg tokens rows p hp

theorem charId_filter_count (tokens : List Token) (rows : List Row) {c : Int} (hc : 0 ≤ c)
    (hmem : c ∈ (groupFold (entityClusterStream tokens rows) []).map Prod.fst) :
    (((groupFold (entityClusterStream tokens rows) []).map
        (fun p => mkCharacter p.1 p.2)).filter
        (fun ch => ch.id = charIdOf c)).length = 1 := by
  rw [List.filter_map, List.length_map, ← List.countP_eq_length_filter]
  have hstep1 :
      List.countP ((fun ch => decide (ch.id = charIdOf c)) ∘ (fun p => mkCharacter p.1 p.2))
        (groupFold (entityClusterStream tokens rows) []) =
      List.countP (fun p => decide (p.1 = c))
        (groupFold (entityClusterStream tokens rows) []) := by
    apply List.countP_congr
    intro p hp
    have hp1 : 0 ≤ p.1 := clusterGroups_keys_nonneg tokens rows p.1
      (List.mem_map_of_mem Prod.fst hp)
    simp only [Function.comp, mkCharacter_id, decide_eq_true_eq]
    constructor
    · intro h
      exact charIdOf_inj hp1 hc h
    · intro h
      rw [h]
  rw [hstep1]
  have hstep2 :
      List.countP (fun p => decide (p.1 = c)) (groupFold (entityClusterStream tokens rows) []) =
      List.countP (fun k => decide (k = c))
        ((groupFold (entityClusterStream tokens rows) []).map Prod.fst) := by
    rw [List.countP_map]
    rfl
  rw [hstep2]
  have hnodup : (((groupFold (entityClusterStream tokens rows) []).map Prod.fst)).Nodup :=
    nodup_keys_groupFold _ (by simp)
  have hcount := List.count_eq_one_of_mem hnodup hmem
  rw [← hcount, List.count_eq_countP]
  apply List.countP_congr
  intro k hk
  simp

/-- Component-level referential integrity: every resolved mention's
character id occurs exactly once among the built characters' ids. -/
theorem entity_integrity_component (tokens : List Token) (rows : List Row) :
    ∀ m ∈ entityMentions tokens rows, ∀ s, m.character_id = some s →
    (((groupFold (entityClusterStream tokens rows) []).map
        (fun p => mkCharacter p.1 p.2)).filter (fun ch => ch.id = s)).length = 1 := by
  intro m hm s hs
  obtain ⟨⟨i, row⟩, hmem, hmap⟩ := List.mem_filterMap.mp hm
  rw [Option.map_eq_some'] at hmap
  obtain ⟨⟨m', cl⟩, hparse, hfst⟩ := hmap
  simp only at hfst
  subst hfst
  obtain ⟨-, hdich⟩ := parseEntityRow_inv hparse
  rcases hdich with ⟨c, hc, hchar, e, hcl⟩ | ⟨hchar, -⟩
  · rw [hchar] at hs
    injection hs with hs
    subst hs
    have hstream : (c, e) ∈ entityClusterStream tokens rows := by
      refine List.mem_filterMap.mpr ⟨(i, row), hmem, ?_⟩
      rw [hparse, hcl]
      rfl
    have hkey : c ∈ (groupFold (entityClusterStream tokens rows) []).map Prod.fst := by
      rw [keys_groupFold]
      exact (mem_insKeys _ _ _).mpr (Or.inr (List.mem_map_of_mem Prod.fst hstream))
    exact charId_filter_count tokens rows hc hkey
  · rw [hchar] at hs
    exact absurd hs (by simp)

set_option maxRecDepth 8192 in
/-- Field equations of a successful `build_contract` run. -/
theorem build_contract_ok_fields {tf : String} {entities_file quotes_file : Option String}
    {output_dir document_id original_text : String} {dur : Float} {bv : String}
    {c : BookNLPContract}
    (hok : build_contract (some tf) entities_file quotes_file output_dir document_id
        original_text dur bv = Except.ok c) :
    c.characters =
      (build_characters_and_mentions entities_file (build_token_index (some tf) original_text)).1 ∧
    c.mentions =
      (build_characters_and_mentions entities_file (build_token_index (some tf) original_text)).2.1 ∧
    c.coref_chains =
      build_coref_chains
        (build_characters_and_mentions entities_file (build_token_index (some tf) original_text)).2.1
        (build_characters_and_mentions entities_file (build_token_index (some tf) original_text)).2.2 ∧
    c.quotes =
      build_quotes quotes_file (build_token_index (some tf) original_text)
        (build_characters_and_mentions entities_file (build_token_index (some tf) original_text)).2.2
        (build_characters_and_mentions entities_file (build_token_index (some tf) original_text)).1 ∧
    c.tokens = build_token_index (some tf) original_text := by
  unfold build_contract at hok
  injection hok with h
  rw [← h]
  exact ⟨rfl, rfl, rfl, rfl, rfl⟩

/-! ## Claim C2: mention-to-character referential integrity -/

/-- C2: in every contract produced by `build_contract`, every Mention with
a non-null `character_id` references exactly one Character of the same
contract (the filter of the characters list on that id has length one). -/
theorem C2_mention_character_integrity
    (tokens_file entities_file quotes_file : Option String)
    (output_dir document_id original_text : String) (dur : Float) (bv : String)
    (c : BookNLPContract)
    (hok : build_contract tokens_file entities_file quotes_file output_dir document_id
        original_text dur bv = Except.ok c) :
    ∀ m ∈ c.mentions, ∀ s, m.character_id = some s →
      (c.characters.filter (fun ch => ch.id = s)).length = 1 := by
  cases tokens_file with
  | none => simp [build_contract] at hok
  | some tf =>
    obtain ⟨hchars, hments, -, -, -⟩ := build_contract_ok_fields hok
    intro m hm s hs
    rw [hments, bcm_mentions_eq] at hm
    rw [hchars, bcm_characters_eq]
    exact entity_integrity_component _ _ m hm s hs

/-- C2 witness: a concrete contract with one resolved mention referencing
`char_5`; that id occurs exactly once among the characters. -/
theorem C2_mention_character_integrity_witness :
    ∃ c, build_contract
        (some "word\tbyte_onset\tbyte_offset\tsentence_id\tparagraph_id\nTom\t0\t3\t0\t0")
        (some "COREF\tstart_token\tend_token\ttext\n5\t0\t0\tTom")
        none "out" "doc" "Tom" 1.0 "1.0.8" = Except.ok c ∧
      ∃ m ∈ c.mentions, m.character_id = some "char_5" ∧
        (c.characters.filter (fun ch => ch.id = "char_5")).length = 1 := by
  refine ⟨_, rfl, ?_⟩
  have h := C2_mention_character_integrity
    (some "word\tbyte_onset\tbyte_offset\tsentence_id\tparagraph_id\nTom\t0\t3\t0\t0")
    (some "COREF\tstart_token\tend_token\ttext\n5\t0\t0\tTom")
    none "out" "doc" "Tom" 1.0 "1.0.8" _ rfl
  refine ⟨(⟨"mention_0", some "char_5", "Tom", 0, 0, 0, 3, 0, "PROP", "PER"⟩ : Mention),
    ?_, rfl, ?_⟩
  · decide
  · exact h (⟨"mention_0", some "char_5", "Tom", 0, 0, 0, 3, 0, "PROP", "PER"⟩ : Mention)
      (by decide) "char_5" rfl

/-! ## Chain builder characterization -/

theorem chainStream_cons_none {m : Mention} (t : List Mention) (hc : m.character_id = none) :
    chainStream (m :: t) = chainStream t := by
  unfold chainStream
  exact List.filterMap_cons_none (by rw [hc])

theorem chainStream_cons_empty {m : Mention} (t : List Mention)
    (hc : m.character_id = some "") : chainStream (m :: t) = chainStream t := by
  unfold chainStream
  exact List.filterMap_cons_none (by rw [hc]; rfl)

theorem chainStream_cons_some {m : Mention} {s : String} (t : List Mention)
    (hc : m.character_id = some s) (hs : s ≠ "") :
    chainStream (m :: t) = (s, m.id) :: chainStream t := by
  unfold chainStream
  exact List.filterMap_cons_some (by rw [hc]; simp [hs])

theorem chainsFold_go (mentions : List Mention) : ∀ acc : List (String × List String),
    mentions.foldl
      (fun acc m =>
        match m.character_id with
        | some s => if s = "" then acc else dictAppend acc s m.id
        | none => acc) acc =
    groupFold (chainStream mentions) acc := by
  induction mentions with
  | nil => intro acc; rfl
  | cons m t ih =>
    intro acc
    rw [List.foldl_cons]
    cases hc : m.character_id with
    | none =>
      dsimp only
      rw [ih, chainStream_cons_none t hc]
    | some s =>
      by_cases hs : s = ""
      · subst hs
        dsimp only
        rw [if_pos rfl, ih, chainStream_cons_empty t hc]
      · dsimp only
        rw [if_neg hs, ih, chainStream_cons_some t hc hs, groupFold_cons]

theorem build_coref_chains_eq (mentions : List Mention) (lookup : List (Int × String)) :
    build_coref_chains mentions lookup =
      (groupFold (chainStream mentions) []).map
        (fun p => { chain_id := "chain_" ++ p.1, character_id := some p.1,
                    mentions := p.2 }) := by
  unfold build_coref_chains chainsFold
  rw [chainsFold_go]

theorem sel_chainStream (mentions : List Mention) {s : String} (hs : s ≠ "") :
    sel (chainStream mentions) s =
      (mentions.filter (fun m => m.character_id = some s)).map Mention.id := by
  induction mentions with
  | nil => rfl
  | cons m t ih =>
    cases hc : m.character_id with
    | none =>
      rw [chainStream_cons_none t hc, ih, List.filter_cons_of_neg (by simp [hc])]
    | some s' =>
      by_cases hs' : s' = ""
      · subst hs'
        rw [chainStream_cons_empty t hc, ih,
          List.filter_cons_of_neg (by simp [hc, Ne.symm hs])]
      · rw [chainStream_cons_some t hc hs']
        by_cases heq : s' = s
        · subst heq
          rw [List.filter_cons_of_pos (by simp [hc])]
          unfold sel
          rw [List.filter_cons_of_pos (by simp)]
          simp only [List.map_cons]
          rw [← ih]
          rfl
        · rw [List.filter_cons_of_neg (by simp [hc, heq])]
          unfold sel
          rw [List.filter_cons_of_neg (by simp [heq])]
          exact ih

theorem chainStream_key_inv (mentions : List Mention) :
    ∀ p ∈ chainStream mentions, p.1 ≠ "" ∧
      ∃ m ∈ mentions, m.character_id = some p.1 ∧ m.id = p.2 := by
  intro p hp
  obtain ⟨m, hm, hf⟩ := List.mem_filterMap.mp hp
  cases hc : m.character_id with
  | none => rw [hc] at hf; simp at hf
  | some s =>
    rw [hc] at hf
    by_cases hs : s = ""
    · simp [hs] at hf
    · simp only [if_neg hs] at hf
      injection hf with hf
      rw [← hf]
      exact ⟨hs, m, hm, hc, rfl⟩

theorem chainStream_mem_of (mentions : List Mention) {m : Mention} {s : String}
    (hm : m ∈ mentions) (hc : m.character_id = some s) (hs : s ≠ "") :
    (s, m.id) ∈ chainStream mentions := by
  refine List.mem_filterMap.mpr ⟨m, hm, ?_⟩
  rw [hc]
  simp [hs]

theorem chain_filter_count (mentions : List Mention) {s : String}
    (hmem : s ∈ (groupFold (chainStream mentions) []).map Prod.fst) :
    (((groupFold (chainStream mentions) []).map
        (fun p => ({ chain_id := "chain_" ++ p.1, character_id := some p.1,
                     mentions := p.2 } : CorefChain))).filter
        (fun ch => ch.character_id = some s)).length = 1 := by
  rw [List.filter_map, List.length_map, ← List.countP_eq_length_filter]
  have hstep1 :
      List.countP ((fun ch => decide (ch.character_id = some s)) ∘
          (fun p => ({ chain_id := "chain_" ++ p.1, character_id := some p.1,
                       mentions := p.2 } : CorefChain)))
        (groupFold (chainStream mentions) []) =
      List.countP (fun p => decide (p.1 = s)) (groupFold (chainStream mentions) []) := by
    apply List.countP_congr
    intro p hp
    simp [Function.comp]
  rw [hstep1]
  have hstep2 :
      List.countP (fun p => decide (p.1 = s)) (groupFold (chainStream mentions) []) =
      List.countP (fun k => decide (k = s))
        ((groupFold (chainStream mentions) []).map Prod.fst) := by
    rw [List.countP_map]
    rfl
  rw [hstep2]
  have hnodup : (((groupFold (chainStream mentions) []).map Prod.fst)).Nodup :=
    nodup_keys_groupFold _ (by simp)
  have hcount := List.count_eq_one_of_mem hnodup hmem
  rw [← hcount, List.count_eq_countP]
  apply List.countP_congr
  intro k hk
  simp

/-! ## Claim C3: chain builder correctness (corrected) -/

/-- C3 counterexample: the chain fold guards with Python truthiness
(`if mention["character_id"]:`), which excludes the empty string as well as
`None`; a Mention list containing a mention with `character_id = some ""`
(non-null) yields no chain at all, falsifying the claim as stated. -/
theorem C3_chain_builder_counterexample :
    (∃ m ∈ [(⟨"mention_0", some "", "x", 0, 0, 0, 0, 0, "PROP", "PER"⟩ : Mention)],
        m.character_id ≠ none) ∧
    build_coref_chains
      [(⟨"mention_0", some "", "x", 0, 0, 0, 0, 0, "PROP", "PER"⟩ : Mention)] [] = [] := by
  exact ⟨by decide, by decide⟩

/-- Every emitted chain carries a non-empty character id, a chain id
derived from it, and exactly the ids of the mentions with that character
id, in mention order. -/
theorem build_coref_chains_inv (mentions : List Mention)
    (cluster_to_char_id : List (Int × String)) :
    ∀ ch ∈ build_coref_chains mentions cluster_to_char_id,
      ∃ s, s ≠ "" ∧ ch.character_id = some s ∧ ch.chain_id = "chain_" ++ s ∧
        (∃ m ∈ mentions, m.character_id = some s) ∧
        ch.mentions = (mentions.filter (fun m => m.character_id = some s)).map Mention.id := by
  intro ch hch
  rw [build_coref_chains_eq] at hch
  obtain ⟨⟨s, vs⟩, hmem, rfl⟩ := List.mem_map.mp hch
  have hnodup : ((groupFold (chainStream mentions) []).map Prod.fst).Nodup :=
    nodup_keys_groupFold _ (by simp)
  have hfind := dictFind?_of_mem_nodup hnodup hmem
  rw [dictFind?_groupFold_nil] at hfind
  by_cases hkey : s ∈ (chainStream mentions).map Prod.fst
  · rw [if_pos hkey] at hfind
    injection hfind with hfind
    obtain ⟨p, hp, hps⟩ := List.mem_map.mp hkey
    obtain ⟨hne, m, hmmem, hmc, -⟩ := chainStream_key_inv mentions p hp
    rw [hps] at hne hmc
    refine ⟨s, hne, rfl, rfl, ⟨m, hmmem, hmc⟩, ?_⟩
    show vs = _
    rw [← hfind]
    exact sel_chainStream mentions hne
  · rw [if_neg hkey] at hfind
    exact absurd hfind (by simp)

/-- A non-empty character id that occurs in the Mention list owns exactly
one chain. -/
theorem build_coref_chains_count (mentions : List Mention)
    (cluster_to_char_id : List (Int × String)) {s : String} (hs : s ≠ "")
    (hex : ∃ m ∈ mentions, m.character_id = some s) :
    ((build_coref_chains mentions cluster_to_char_id).filter
        (fun ch => ch.character_id = some s)).length = 1 := by
  obtain ⟨m, hm, hc⟩ := hex
  rw [build_coref_chains_eq]
  apply chain_filter_count
  rw [keys_groupFold]
  exact (mem_insKeys _ _ _).mpr
    (Or.inr (List.mem_map_of_mem Prod.fst (chainStream_mem_of mentions hm hc hs)))

/-- C3 amended: `build_coref_chains` emits exactly one chain per distinct
non-null *and non-empty* `character_id` in the Mention list (mentions with
null or empty-string ids are excluded); each chain carries the ids of
exactly the mentions with that `character_id`, in Mention-list order, and
its `chain_id` is `"chain_" ++ character_id`. -/
theorem C3_chain_builder_amended (mentions : List Mention)
    (cluster_to_char_id : List (Int × String)) :
    (∀ ch ∈ build_coref_chains mentions cluster_to_char_id,
      ∃ s, s ≠ "" ∧ ch.character_id = some s ∧ ch.chain_id = "chain_" ++ s ∧
        (∃ m ∈ mentions, m.character_id = some s) ∧
        ch.mentions = (mentions.filter (fun m => m.character_id = some s)).map Mention.id) ∧
    (∀ s : String, s ≠ "" → (∃ m ∈ mentions, m.character_id = some s) →
      ((build_coref_chains mentions cluster_to_char_id).filter
          (fun ch => ch.character_id = some s)).length = 1) :=
  ⟨build_coref_chains_inv mentions cluster_to_char_id,
    fun _ hs hex => build_coref_chains_count mentions cluster_to_char_id hs hex⟩

/-- C3 witness: one mention resolved to `char_7` yields exactly one chain
with that character id. -/
theorem C3_chain_builder_amended_witness :
    ((build_coref_chains
        [(⟨"mention_0", some "char_7", "x", 0, 0, 0, 0, 0, "PROP", "PER"⟩ : Mention)] []).filter
      (fun ch => ch.character_id = some "char_7")).length = 1 :=
  (C3_chain_builder_amended
    [(⟨"mention_0", some "char_7", "x", 0, 0, 0, 0, 0, "PROP", "PER"⟩ : Mention)] []).2
    "char_7" (by decide)
    ⟨(⟨"mention_0", some "char_7", "x", 0, 0, 0, 0, 0, "PROP", "PER"⟩ : Mention),
      by decide, rfl⟩

/-! ## Cross-collection counting lemmas -/

theorem mention_count_eq_stream_count (tokens : List Token) (l : List (Nat × Row))
    {cid : Int} (hcid : 0 ≤ cid) :
    ((l.filterMap (fun p => (parseEntityRow tokens p.1 p.2).map Prod.fst)).filter
        (fun m => m.character_id = some (charIdOf cid))).length =
    ((l.filterMap (fun p => (parseEntityRow tokens p.1 p.2).bind Prod.snd)).filter
        (fun p => p.1 = cid)).length := by
  induction l with
  | nil => rfl
  | cons p t ih =>
    obtain ⟨i, row⟩ := p
    cases hp : parseEntityRow tokens i row with
    | none =>
      rw [List.filterMap_cons_none (by rw [hp]; rfl),
          List.filterMap_cons_none (by rw [hp]; rfl)]
      exact ih
    | some res =>
      obtain ⟨m, cl⟩ := res
      obtain ⟨-, hdich⟩ := parseEntityRow_inv hp
      rcases hdich with ⟨c, hc0, hchar, e, hcl⟩ | ⟨hchar, hcl⟩
      · subst hcl
        rw [List.filterMap_cons_some (by rw [hp]; rfl),
            List.filterMap_cons_some (by rw [hp]; rfl)]
        by_cases hceq : c = cid
        · subst hceq
          rw [List.filter_cons_of_pos (by simp [hchar]),
              List.filter_cons_of_pos (by simp)]
          simp only [List.length_cons]
          rw [ih]
        · rw [List.filter_cons_of_neg
              (by simp only [hchar, decide_eq_true_eq, Option.some.injEq]
                  exact fun h => hceq (charIdOf_inj hc0 hcid h)),
            List.filter_cons_of_neg (by simp [hceq])]
          exact ih
      · subst hcl
        rw [List.filterMap_cons_some (by rw [hp]; rfl),
            List.filterMap_cons_none (by rw [hp]; rfl),
            List.filter_cons_of_neg (by simp [hchar])]
        exact ih

theorem stream_key_mention (tokens : List Token) (rows : List Row) {cid : Int}
    (h : cid ∈ (entityClusterStream tokens rows).map Prod.fst) :
    ∃ m ∈ entityMentions tokens rows, m.character_id = some (charIdOf cid) := by
  obtain ⟨p, hp, hps⟩ := List.mem_map.mp h
  obtain ⟨⟨i, row⟩, hmem, hbind⟩ := List.mem_filterMap.mp hp
  rw [Option.bind_eq_some] at hbind
  obtain ⟨⟨m, cl⟩, hparse, hsnd⟩ := hbind
  simp only at hsnd
  obtain ⟨-, hdich⟩ := parseEntityRow_inv hparse
  rcases hdich with ⟨c', hc', hchar, e, hcl⟩ | ⟨-, hcl⟩
  · refine ⟨m, List.mem_filterMap.mpr ⟨(i, row), hmem, by rw [hparse]; rfl⟩, ?_⟩
    rw [hchar]
    rw [hcl] at hsnd
    injection hsnd with hsnd
    rw [← hps, ← hsnd]
  · rw [hcl] at hsnd
    simp at hsnd

/-! ## Claim C10: cross-collection count consistency -/

/-- C10: in every contract produced by `build_contract`, each Character's
`mention_count` equals the number of Mentions in the contract whose
`character_id` equals that Character's id; exactly one CorefChain carries
that Character's id, and every such chain lists exactly `mention_count`
mention ids. -/
theorem C10_count_consistency
    (tokens_file entities_file quotes_file : Option String)
    (output_dir document_id original_text : String) (dur : Float) (bv : String)
    (c : BookNLPContract)
    (hok : build_contract tokens_file entities_file quotes_file output_dir document_id
        original_text dur bv = Except.ok c) :
    ∀ ch ∈ c.characters,
      ch.mention_count =
        (c.mentions.filter (fun m => m.character_id = some ch.id)).length ∧
      (c.coref_chains.filter (fun k => k.character_id = some ch.id)).length = 1 ∧
      (∀ k ∈ c.coref_chains, k.character_id = some ch.id →
        k.mentions.length = ch.mention_count) := by
  cases tokens_file with
  | none => simp [build_contract] at hok
  | some tf =>
    obtain ⟨hchars, hments, hchains, -, -⟩ := build_contract_ok_fields hok
    intro ch hch
    rw [hchars, bcm_characters_eq] at hch
    obtain ⟨⟨cid, data⟩, hmemG, rfl⟩ := List.mem_map.mp hch
    have hnodup : ((groupFold (entityClusterStream
        (build_token_index (some tf) original_text)
        (parse_tsv_file entities_file)) []).map Prod.fst).Nodup :=
      nodup_keys_groupFold _ (by simp)
    have hfind := dictFind?_of_mem_nodup hnodup hmemG
    rw [dictFind?_groupFold_nil] at hfind
    by_cases hkey : cid ∈ (entityClusterStream (build_token_index (some tf) original_text)
        (parse_tsv_file entities_file)).map Prod.fst
    · rw [if_pos hkey] at hfind
      injection hfind with hfind
      have hcid : 0 ≤ cid := clusterGroups_keys_nonneg _ _ cid
        (List.mem_map_of_mem Prod.fst hmemG)
      have hid : (mkCharacter cid data).id = charIdOf cid := rfl
      have hmc : (mkCharacter cid data).mention_count = data.length := rfl
      have hlen1 : ((entityMentions (build_token_index (some tf) original_text)
            (parse_tsv_file entities_file)).filter
            (fun m => m.character_id = some (charIdOf cid))).length =
          ((entityClusterStream (build_token_index (some tf) original_text)
            (parse_tsv_file entities_file)).filter (fun p => p.1 = cid)).length :=
        mention_count_eq_stream_count (build_token_index (some tf) original_text)
          (parse_tsv_file entities_file).enum hcid
      have hlen2 : data.length =
          ((entityClusterStream (build_token_index (some tf) original_text)
            (parse_tsv_file entities_file)).filter (fun p => p.1 = cid)).length := by
        rw [← hfind]
        unfold sel
        rw [List.length_map]
      refine ⟨?_, ?_, ?_⟩
      · rw [hments, bcm_mentions_eq, hmc, hid, hlen1]
        exact hlen2
      · rw [hchains, bcm_mentions_eq, hid]
        exact build_coref_chains_count _ _ (charIdOf_ne_empty cid)
          (stream_key_mention _ _ hkey)
      · intro k hk hkc
        rw [hchains, bcm_mentions_eq] at hk
        obtain ⟨s, -, hkcid, -, -, hkment⟩ := build_coref_chains_inv _ _ k hk
        rw [hid] at hkc
        rw [hkcid] at hkc
        injection hkc with hkc
        subst hkc
        rw [hkment, List.length_map, hmc, hlen1]
        exact hlen2.symm
    · rw [if_neg hkey] at hfind
      exact absurd hfind (by simp)

/-- C10 witness: in the contract built from a one-token, one-entity-row
input, the single character's `mention_count` matches the mention filter
and its unique chain's length. -/
theorem C10_count_consistency_witness :
    ∃ c, build_contract
        (some "word\tbyte_onset\tbyte_offset\tsentence_id\tparagraph_id\nTom\t0\t3\t0\t0")
        (some "COREF\tstart_token\tend_token\ttext\n5\t0\t0\tTom")
        none "out" "doc" "Tom" 1.0 "1.0.8" = Except.ok c ∧
      ∃ ch ∈ c.characters,
        ch.mention_count =
          (c.mentions.filter (fun m => m.character_id = some ch.id)).length ∧
        (c.coref_chains.filter (fun k => k.character_id = some ch.id)).length = 1 := by
  refine ⟨_, rfl, ?_⟩
  have hsingle : ∃ ch, (build_characters_and_mentions
      (some "COREF\tstart_token\tend_token\ttext\n5\t0\t0\tTom")
      (build_token_index
        (some "word\tbyte_onset\tbyte_offset\tsentence_id\tparagraph_id\nTom\t0\t3\t0\t0")
        "Tom")).1 = [ch] := ⟨_, rfl⟩
  obtain ⟨ch, hcc⟩ := hsingle
  have hmem : ch ∈ (build_characters_and_mentions
      (some "COREF\tstart_token\tend_token\ttext\n5\t0\t0\tTom")
      (build_token_index
        (some "word\tbyte_onset\tbyte_offset\tsentence_id\tparagraph_id\nTom\t0\t3\t0\t0")
        "Tom")).1 := by
    rw [hcc]
    exact List.mem_singleton.mpr rfl
  have h := C10_count_consistency
    (some "word\tbyte_onset\tbyte_offset\tsentence_id\tparagraph_id\nTom\t0\t3\t0\t0")
    (some "COREF\tstart_token\tend_token\ttext\n5\t0\t0\tTom")
    none "out" "doc" "Tom" 1.0 "1.0.8" _ rfl ch hmem
  exact ⟨ch, hmem, h.1, h.2.1⟩

/-! ## Claim C6: out-of-range token-index fallback (corrected) -/

/-- C6 counterexample: a negative token index is out of range of the Token
sequence, but Python list indexing resolves it from the back instead of
falling back to 0: with one token at offsets 7..10, an entity row with
`start_token = -1` yields a Mention with `start_char = 7 ≠ 0`. -/
theorem C6_out_of_range_counterexample :
    ∃ m ∈ (build_characters_and_mentions
        (some "COREF\tstart_token\tend_token\ttext\n1\t-1\t-1\tX")
        (build_token_index
          (some "word\tbyte_onset\tbyte_offset\tsentence_id\tparagraph_id\nfoo\t7\t10\t0\t0")
          "")).2.1,
      m.start_token = -1 ∧
      ¬(0 ≤ m.start_token ∧ m.start_token <
        ((build_token_index
          (some "word\tbyte_onset\tbyte_offset\tsentence_id\tparagraph_id\nfoo\t7\t10\t0\t0")
          "").length : Int)) ∧
      m.start_char ≠ 0 := by
  decide

/-- C6 amended: for every parsed entity row whose start and end token
indices parse and are at least the token count (out of range on the high
side), the character offsets resolve to 0 and the mention, with id derived
from the row position, is still included in the Mention list.  (Negative
out-of-range indices instead follow Python semantics: index from the back,
or drop the row when below `-len`.) -/
theorem C6_out_of_range_amended (entities_file : Option String) (tokens : List Token)
    (i : Nat) (hi : i < (parse_tsv_file entities_file).length)
    (coref startTok endTok : Int)
    (hcoref : pyInt? (rowGetD ((parse_tsv_file entities_file).get ⟨i, hi⟩)
      "COREF" "-1") = some coref)
    (hstart : pyInt? (rowGetD ((parse_tsv_file entities_file).get ⟨i, hi⟩)
      "start_token" "0") = some startTok)
    (hend : pyInt? (rowGetD ((parse_tsv_file entities_file).get ⟨i, hi⟩)
      "end_token" "0") = some endTok)
    (hs : (tokens.length : Int) ≤ startTok) (he : (tokens.length : Int) ≤ endTok) :
    ∃ m ∈ (build_characters_and_mentions entities_file tokens).2.1,
      m.id = "mention_" ++ decRepr i ∧ m.start_char = 0 ∧ m.end_char = 0 := by
  have h1 : resolveStartChar tokens startTok = some 0 := by
    unfold resolveStartChar
    rw [if_neg (not_lt.mpr hs)]
  have h2 : resolveEndChar tokens endTok = some 0 := by
    unfold resolveEndChar
    rw [if_neg (not_lt.mpr he)]
  have h3 : resolveSentenceIdx tokens startTok = some 0 := by
    unfold resolveSentenceIdx
    rw [if_neg (not_lt.mpr hs)]
  have hparse : parseEntityRow tokens i ((parse_tsv_file entities_file).get ⟨i, hi⟩) =
      some
        (⟨"mention_" ++ decRepr i,
          if 0 ≤ coref then some (charIdOf coref) else none,
          rowGetD ((parse_tsv_file entities_file).get ⟨i, hi⟩) "text" "",
          startTok, endTok, 0, 0, 0,
          rowGetD ((parse_tsv_file entities_file).get ⟨i, hi⟩) "mention_type"
            (rowGetD ((parse_tsv_file entities_file).get ⟨i, hi⟩) "cat" "PROP"),
          rowGetD ((parse_tsv_file entities_file).get ⟨i, hi⟩) "entity_type"
            (rowGetD ((parse_tsv_file entities_file).get ⟨i, hi⟩) "ner" "PER")⟩,
        if 0 ≤ coref then
          some (coref,
            ⟨rowGetD ((parse_tsv_file entities_file).get ⟨i, hi⟩) "text" "",
              rowGetD ((parse_tsv_file entities_file).get ⟨i, hi⟩) "mention_type"
                (rowGetD ((parse_tsv_file entities_file).get ⟨i, hi⟩) "cat" "PROP"),
              rowGetD ((parse_tsv_file entities_file).get ⟨i, hi⟩) "name"
                (rowGetD ((parse_tsv_file entities_file).get ⟨i, hi⟩) "text" "")⟩)
        else none) := by
    unfold parseEntityRow
    rw [hcoref, hstart, hend]
    dsimp only
    rw [h1, h2, h3]
  have henum : (i, (parse_tsv_file entities_file).get ⟨i, hi⟩) ∈
      (parse_tsv_file entities_file).enum := by
    have h' : i < (parse_tsv_file entities_file).enum.length := by
      rw [List.enum_length]
      exact hi
    have hmem := List.getElem_mem h'
    rw [List.getElem_enum] at hmem
    exact hmem
  refine ⟨(⟨"mention_" ++ decRepr i,
      if 0 ≤ coref then some (charIdOf coref) else none,
      rowGetD ((parse_tsv_file entities_file).get ⟨i, hi⟩) "text" "",
      startTok, endTok, 0, 0, 0,
      rowGetD ((parse_tsv_file entities_file).get ⟨i, hi⟩) "mention_type"
        (rowGetD ((parse_tsv_file entities_file).get ⟨i, hi⟩) "cat" "PROP"),
      rowGetD ((parse_tsv_file entities_file).get ⟨i, hi⟩) "entity_type"
        (rowGetD ((parse_tsv_file entities_file).get ⟨i, hi⟩) "ner" "PER")⟩ : Mention),
    ?_, rfl, rfl, rfl⟩
  rw [bcm_mentions_eq]
  exact List.mem_filterMap.mpr ⟨(i, (parse_tsv_file entities_file).get ⟨i, hi⟩),
    henum, by rw [hparse]; rfl⟩

/-- C6 witness: `start_token = 999` with only one token resolves both
offsets to 0 and keeps the mention. -/
theorem C6_out_of_range_amended_witness :
    ∃ m ∈ (build_characters_and_mentions
        (some "COREF\tstart_token\tend_token\ttext\n1\t999\t999\tX")
        (build_token_index
          (some "word\tbyte_onset\tbyte_offset\tsentence_id\tparagraph_id\nfoo\t7\t10\t0\t0")
          "")).2.1,
      m.id = "mention_" ++ decRepr 0 ∧ m.start_char = 0 ∧ m.end_char = 0 :=
  C6_out_of_range_amended
    (some "COREF\tstart_token\tend_token\ttext\n1\t999\t999\tX")
    (build_token_index
      (some "word\tbyte_onset\tbyte_offset\tsentence_id\tparagraph_id\nfoo\t7\t10\t0\t0")
      "")
    0 (by decide) 1 999 999 (by decide) (by decide) (by decide)
    (by decide) (by decide)

/-! ## Claim C8: quote speaker resolution (corrected) -/

/-- C8 counterexample: the no-speaker handling only applies to rows that
survive the numeric token-field parse: a quote row with speaker `"_"` but
an unparsable `quote_start` is dropped entirely (no Quote emitted),
falsifying the claim as stated for that row. -/
theorem C8_quote_speaker_counterexample :
    ((parse_tsv_file (some "quote_start\tquote_end\tchar_id\tquote\nx\t0\t_\thi")).map
        (fun r => rowGetD r "char_id" (rowGetD r "speaker" "")) = ["_"]) ∧
    build_quotes (some "quote_start\tquote_end\tchar_id\tquote\nx\t0\t_\thi") [] [] [] = [] := by
  exact ⟨by decide, by decide⟩

/-- C8 amended: for every quote row whose token fields parse and whose
character offsets resolve, a speaker field equal to `""`, `"_"` or `"-1"`,
or a numeric speaker absent from the cluster lookup, yields an emitted
Quote (id derived from the row position) with `speaker_id = none` and
`speaker_name = none`; such a row is not dropped. -/
theorem C8_quote_speaker_amended (quotes_file : Option String) (tokens : List Token)
    (cluster_to_char_id : List (Int × String)) (characters : List Character)
    (i : Nat) (hi : i < (parse_tsv_file quotes_file).length)
    (startTok endTok sc ec : Int)
    (hstart : pyInt? (rowGetD ((parse_tsv_file quotes_file).get ⟨i, hi⟩) "quote_start"
        (rowGetD ((parse_tsv_file quotes_file).get ⟨i, hi⟩) "start" "0")) = some startTok)
    (hend : pyInt? (rowGetD ((parse_tsv_file quotes_file).get ⟨i, hi⟩) "quote_end"
        (rowGetD ((parse_tsv_file quotes_file).get ⟨i, hi⟩) "end" "0")) = some endTok)
    (hsc : resolveStartChar tokens startTok = some sc)
    (hec : resolveEndChar tokens endTok = some ec)
    (hspeaker :
      rowGetD ((parse_tsv_file quotes_file).get ⟨i, hi⟩) "char_id"
        (rowGetD ((parse_tsv_file quotes_file).get ⟨i, hi⟩) "speaker" "") = "" ∨
      rowGetD ((parse_tsv_file quotes_file).get ⟨i, hi⟩) "char_id"
        (rowGetD ((parse_tsv_file quotes_file).get ⟨i, hi⟩) "speaker" "") = "_" ∨
      rowGetD ((parse_tsv_file quotes_file).get ⟨i, hi⟩) "char_id"
        (rowGetD ((parse_tsv_file quotes_file).get ⟨i, hi⟩) "speaker" "") = "-1" ∨
      (∃ n : Int,
        pyInt? (rowGetD ((parse_tsv_file quotes_file).get ⟨i, hi⟩) "char_id"
          (rowGetD ((parse_tsv_file quotes_file).get ⟨i, hi⟩) "speaker" "")) = some n ∧
        dictFind? cluster_to_char_id n = none)) :
    ∃ q ∈ build_quotes quotes_file tokens cluster_to_char_id characters,
      q.id = "quote_" ++ decRepr i ∧ q.speaker_id = none ∧ q.speaker_name = none := by
  have henum : (i, (parse_tsv_file quotes_file).get ⟨i, hi⟩) ∈
      (parse_tsv_file quotes_file).enum := by
    have h' : i < (parse_tsv_file quotes_file).enum.length := by
      rw [List.enum_length]
      exact hi
    have hmem := List.getElem_mem h'
    rw [List.getElem_enum] at hmem
    exact hmem
  obtain ⟨q, hq, hid, hsid, hsname⟩ :
      ∃ q, parseQuoteRow tokens cluster_to_char_id
        (characters.foldl (fun acc c => dictInsert acc c.id c.canonical_name) []) i
        ((parse_tsv_file quotes_file).get ⟨i, hi⟩) = some q ∧
        q.id = "quote_" ++ decRepr i ∧ q.speaker_id = none ∧ q.speaker_name = none := by
    unfold parseQuoteRow
    rw [hstart, hend]
    dsimp only
    rw [hsc, hec]
    dsimp only
    rcases hspeaker with hsp | hsp | hsp | ⟨n, hn, hlook⟩
    · rw [hsp]
      exact ⟨_, rfl, rfl, rfl, rfl⟩
    · rw [hsp]
      exact ⟨_, rfl, rfl, rfl, rfl⟩
    · rw [hsp]
      exact ⟨_, rfl, rfl, rfl, rfl⟩
    · by_cases hcond :
        rowGetD ((parse_tsv_file quotes_file).get ⟨i, hi⟩) "char_id"
            (rowGetD ((parse_tsv_file quotes_file).get ⟨i, hi⟩) "speaker" "") ≠ "" ∧
          rowGetD ((parse_tsv_file quotes_file).get ⟨i, hi⟩) "char_id"
            (rowGetD ((parse_tsv_file quotes_file).get ⟨i, hi⟩) "speaker" "") ≠ "_" ∧
          rowGetD ((parse_tsv_file quotes_file).get ⟨i, hi⟩) "char_id"
            (rowGetD ((parse_tsv_file quotes_file).get ⟨i, hi⟩) "speaker" "") ≠ "-1"
      · rw [if_pos hcond, hn]
        dsimp only
        rw [hlook]
        exact ⟨_, rfl, rfl, rfl, rfl⟩
      · rw [if_neg hcond]
        exact ⟨_, rfl, rfl, rfl, rfl⟩
  refine ⟨q, ?_, hid, hsid, hsname⟩
  unfold build_quotes
  exact List.mem_filterMap.mpr
    ⟨(i, (parse_tsv_file quotes_file).get ⟨i, hi⟩), henum, hq⟩

/-- C8 witness: a concrete quote row with speaker `"_"` is emitted with
null speaker fields. -/
theorem C8_quote_speaker_amended_witness :
    ∃ q ∈ build_quotes (some "quote_start\tquote_end\tchar_id\tquote\n0\t0\t_\thi")
        (build_token_index
          (some "word\tbyte_onset\tbyte_offset\tsentence_id\tparagraph_id\nfoo\t7\t10\t0\t0")
          "") [] [],
      q.id = "quote_" ++ decRepr 0 ∧ q.speaker_id = none ∧ q.speaker_name = none :=
  C8_quote_speaker_amended
    (some "quote_start\tquote_end\tchar_id\tquote\n0\t0\t_\thi")
    (build_token_index
      (some "word\tbyte_onset\tbyte_offset\tsentence_id\tparagraph_id\nfoo\t7\t10\t0\t0")
      "") [] [] 0 (by decide) 0 0 7 10 (by decide) (by decide) (by decide) (by decide)
    (Or.inr (Or.inl (by decide)))

/-! ## Canonical-name selection lemmas -/

theorem lastNonEmpty_ne_empty : ∀ {l : List String} {s : String},
    lastNonEmpty l = some s → s ≠ "" := by
  intro l
  induction l with
  | nil => intro s h; simp [lastNonEmpty] at h
  | cons a t ih =>
    intro s h
    unfold lastNonEmpty at h
    cases ht : lastNonEmpty t with
    | some u =>
      rw [ht] at h
      injection h with h
      subst h
      exact ih ht
    | none =>
      rw [ht] at h
      by_cases ha : a = ""
      · simp [ha] at h
      · simp only [ne_eq, ha, not_false_iff, if_true, Option.some.injEq] at h
        subst h
        exact ha

theorem canonicalFold_go (data : List ClusterEntry) : ∀ a : String,
    data.foldl (fun acc e => if e.canonical ≠ "" then e.canonical else acc) a =
      match lastNonEmpty (data.map ClusterEntry.canonical) with
      | some s => s
      | none => a := by
  induction data with
  | nil => intro a; rfl
  | cons e t ih =>
    intro a
    rw [List.foldl_cons, ih]
    show _ = match lastNonEmpty (e.canonical :: t.map ClusterEntry.canonical) with
      | some s => s
      | none => a
    have hcons : lastNonEmpty (e.canonical :: t.map ClusterEntry.canonical) =
        match lastNonEmpty (t.map ClusterEntry.canonical) with
        | some u => some u
        | none => if e.canonical ≠ "" then some e.canonical else none := rfl
    rw [hcons]
    cases ht : lastNonEmpty (t.map ClusterEntry.canonical) with
    | some u => rfl
    | none =>
      by_cases he : e.canonical = "" <;> simp [he]

theorem canonicalFold_eq (data : List ClusterEntry) :
    canonicalFold data =
      match lastNonEmpty (data.map ClusterEntry.canonical) with
      | some s => s
      | none => "" :=
  canonicalFold_go data ""

theorem countsOf_find (texts : List String) : ∀ (acc : List (String × Nat)) (t : String),
    dictFind? (texts.foldl
        (fun acc t => dictInsert acc t ((dictFind? acc t).getD 0 + 1)) acc) t =
      match dictFind? acc t with
      | some c => some (c + texts.count t)
      | none => if t ∈ texts then some (texts.count t) else none := by
  induction texts with
  | nil => intro acc t; cases h : dictFind? acc t <;> simp [h]
  | cons x xs ih =>
    intro acc t
    rw [List.foldl_cons, ih]
    by_cases hx : t = x
    · subst hx
      rw [dictFind?_dictInsert_self]
      cases h : dictFind? acc t with
      | some c =>
        simp only [h, List.count_cons_self, Option.getD_some, Option.some.injEq]
        omega
      | none =>
        simp only [h, List.count_cons_self, Option.getD_none, List.mem_cons, true_or,
          if_true, Option.some.injEq, eq_self_iff_true]
        omega
    · rw [dictFind?_dictInsert_ne _ _ _ _ hx]
      cases h : dictFind? acc t with
      | some c => simp [h, List.count_cons_of_ne hx]
      | none => simp [h, List.count_cons_of_ne hx, hx]

theorem countsOf_keys (texts : List String) : ∀ acc : List (String × Nat),
    ((texts.foldl (fun acc t => dictInsert acc t ((dictFind? acc t).getD 0 + 1)) acc).map
        Prod.fst) = insKeys (acc.map Prod.fst) texts := by
  induction texts with
  | nil => intro acc; rfl
  | cons x xs ih =>
    intro acc
    rw [List.foldl_cons, ih, keys_dictInsert, insKeys_cons]

theorem maxFold_firstmax : ∀ (xs : List (String × Nat)) (x : String × Nat),
    ∃ pre post,
      x :: xs = pre ++ (pyMaxBySnd (x :: xs)) :: post ∧
      (∀ z ∈ pre, z.2 < (pyMaxBySnd (x :: xs)).2) ∧
      (∀ z ∈ x :: xs, z.2 ≤ (pyMaxBySnd (x :: xs)).2) := by
  intro xs
  induction xs with
  | nil =>
    intro x
    refine ⟨[], [], rfl, by simp, ?_⟩
    intro z hz
    rw [List.mem_singleton] at hz
    subst hz
    exact le_refl _
  | cons y ys ih =>
    intro x
    have hstep : pyMaxBySnd (x :: y :: ys) =
        pyMaxBySnd ((if x.2 < y.2 then y else x) :: ys) := rfl
    obtain ⟨pre', post', heq, hpre, hall⟩ := ih (if x.2 < y.2 then y else x)
    by_cases hxy : x.2 < y.2
    · rw [if_pos hxy] at heq hpre hall
      refine ⟨x :: pre', post', ?_, ?_, ?_⟩
      · rw [hstep, if_pos hxy]
        rw [List.cons_append, ← heq]
      · intro z hz
        rcases List.mem_cons.mp hz with rfl | hz'
        · rw [hstep, if_pos hxy]
          exact lt_of_lt_of_le hxy (hall y (List.mem_cons_self y ys))
        · rw [hstep, if_pos hxy]
          exact hpre z hz'
      · intro z hz
        rw [hstep, if_pos hxy]
        rcases List.mem_cons.mp hz with rfl | hz'
        · exact le_of_lt (lt_of_lt_of_le hxy (hall y (List.mem_cons_self y ys)))
        · exact hall z hz'
    · rw [if_neg hxy] at heq hpre hall
      cases pre' with
      | nil =>
        simp only [List.nil_append] at heq
        injection heq with h1 h2
        refine ⟨[], y :: ys, ?_, by simp, ?_⟩
        · rw [hstep, if_neg hxy, ← h1]
          rfl
        · intro z hz
          rw [hstep, if_neg hxy, ← h1]
          rcases List.mem_cons.mp hz with rfl | hz'
          · exact le_refl _
          · rcases List.mem_cons.mp hz' with rfl | hz''
            · exact le_of_not_lt hxy
            · rw [h1]
              exact hall z (List.mem_cons_of_mem _ hz'')
      | cons a pre'' =>
        rw [List.cons_append] at heq
        injection heq with h1 h2
        subst h1
        refine ⟨x :: y :: pre'', post', ?_, ?_, ?_⟩
        · rw [hstep, if_neg hxy]
          rw [List.cons_append, List.cons_append, ← h2]
        · intro z hz
          rw [hstep, if_neg hxy]
          have hxlt : x.2 < (pyMaxBySnd (x :: ys)).2 := hpre x (List.mem_cons_self x pre'')
          rcases List.mem_cons.mp hz with rfl | hz'
          · exact hxlt
          · rcases List.mem_cons.mp hz' with rfl | hz''
            · exact lt_of_le_of_lt (le_of_not_lt hxy) hxlt
            · exact hpre z (List.mem_cons_of_mem _ hz'')
        · intro z hz
          rw [hstep, if_neg hxy]
          have hxlt : x.2 < (pyMaxBySnd (x :: ys)).2 := hpre x (List.mem_cons_self x pre'')
          rcases List.mem_cons.mp hz with rfl | hz'
          · exact le_of_lt hxlt
          · rcases List.mem_cons.mp hz' with rfl | hz''
            · exact le_of_lt (lt_of_le_of_lt (le_of_not_lt hxy) hxlt)
            · exact hall z (List.mem_cons_of_mem _ hz'')

theorem mkCharacter_canonical_last (cid : Int) (data : List ClusterEntry) {s : String}
    (h : lastNonEmpty (data.map ClusterEntry.canonical) = some s) :
    (mkCharacter cid data).canonical_name = s := by
  have hfold : canonicalFold data = s := by rw [canonicalFold_eq, h]
  have hs : s ≠ "" := lastNonEmpty_ne_empty h
  show (if canonicalFold data = "" then
      (pyMaxBySnd (countsOf (data.map ClusterEntry.text))).1 else canonicalFold data) = s
  rw [hfold, if_neg hs]

theorem countsOf_pair_spec (texts : List String) :
    ∀ p ∈ countsOf texts, p.1 ∈ texts ∧ p.2 = texts.count p.1 := by
  intro p hp
  obtain ⟨a, b⟩ := p
  have hkeysnodup : ((countsOf texts).map Prod.fst).Nodup := by
    unfold countsOf
    rw [countsOf_keys _ []]
    exact insKeys_nodup _ List.nodup_nil
  have hfind := dictFind?_of_mem_nodup hkeysnodup hp
  unfold countsOf at hfind
  rw [countsOf_find] at hfind
  simp only [dictFind?] at hfind
  by_cases hmem' : a ∈ texts
  · rw [if_pos hmem'] at hfind
    injection hfind with hfind
    exact ⟨hmem', hfind.symm⟩
  · rw [if_neg hmem'] at hfind
    exact absurd hfind (by simp)

theorem countsOf_mem_of_mem (texts : List String) {t : String} (ht : t ∈ texts) :
    (t, texts.count t) ∈ countsOf texts := by
  apply dictFind?_mem
  show dictFind? (countsOf texts) t = some (texts.count t)
  unfold countsOf
  rw [countsOf_find]
  simp only [dictFind?]
  rw [if_pos ht]

theorem mkCharacter_canonical_fallback (cid : Int) (data : List ClusterEntry)
    (hne : data ≠ []) (hnone : lastNonEmpty (data.map ClusterEntry.canonical) = none) :
    (mkCharacter cid data).canonical_name ∈ data.map ClusterEntry.text ∧
    (∀ t ∈ data.map ClusterEntry.text,
      (data.map ClusterEntry.text).count t ≤
        (data.map ClusterEntry.text).count (mkCharacter cid data).canonical_name) ∧
    ∃ pre post, insKeys [] (data.map ClusterEntry.text) =
        pre ++ (mkCharacter cid data).canonical_name :: post ∧
      ∀ t ∈ pre, (data.map ClusterEntry.text).count t <
        (data.map ClusterEntry.text).count (mkCharacter cid data).canonical_name := by
  have hfold : canonicalFold data = "" := by rw [canonicalFold_eq, hnone]
  have hcanon : (mkCharacter cid data).canonical_name =
      (pyMaxBySnd (countsOf (data.map ClusterEntry.text))).1 := by
    show (if canonicalFold data = "" then
        (pyMaxBySnd (countsOf (data.map ClusterEntry.text))).1 else canonicalFold data) = _
    rw [hfold, if_pos rfl]
  obtain ⟨t0, ts, htexts⟩ : ∃ t0 ts, data.map ClusterEntry.text = t0 :: ts := by
    cases hd : data.map ClusterEntry.text with
    | nil => exact absurd (List.map_eq_nil_iff.mp hd) hne
    | cons a b => exact ⟨a, b, rfl⟩
  have hkeys : (countsOf (data.map ClusterEntry.text)).map Prod.fst =
      insKeys [] (data.map ClusterEntry.text) := countsOf_keys _ []
  have hcounts_ne : countsOf (data.map ClusterEntry.text) ≠ [] := by
    intro hc
    have hik : insKeys [] (data.map ClusterEntry.text) = [] := by
      rw [← hkeys, hc]
      rfl
    have ht0 : t0 ∈ insKeys [] (data.map ClusterEntry.text) :=
      (mem_insKeys _ _ _).mpr (Or.inr (by rw [htexts]; exact List.mem_cons_self _ _))
    rw [hik] at ht0
    simp at ht0
  obtain ⟨c0, rest, hcounts⟩ :
      ∃ c0 rest, countsOf (data.map ClusterEntry.text) = c0 :: rest := by
    cases hc : countsOf (data.map ClusterEntry.text) with
    | nil => exact absurd hc hcounts_ne
    | cons a b => exact ⟨a, b, rfl⟩
  obtain ⟨pre, post, hsplit, hpre, hall⟩ := maxFold_firstmax rest c0
  have hr_mem : pyMaxBySnd (c0 :: rest) ∈ c0 :: rest := by
    have hmem0 : pyMaxBySnd (c0 :: rest) ∈ pre ++ pyMaxBySnd (c0 :: rest) :: post :=
      List.mem_append.mpr (Or.inr (List.mem_cons_self _ _))
    rw [← hsplit] at hmem0
    exact hmem0
  have hr_spec := countsOf_pair_spec (data.map ClusterEntry.text)
    (pyMaxBySnd (c0 :: rest)) (by rw [hcounts]; exact hr_mem)
  refine ⟨?_, ?_, ?_⟩
  · rw [hcanon, hcounts]
    exact hr_spec.1
  · intro t ht
    have hpair := countsOf_mem_of_mem (data.map ClusterEntry.text) ht
    rw [hcounts] at hpair
    have hle := hall _ hpair
    rw [hcanon, hcounts]
    calc (data.map ClusterEntry.text).count t
        = (t, (data.map ClusterEntry.text).count t).2 := rfl
      _ ≤ (pyMaxBySnd (c0 :: rest)).2 := hle
      _ = (data.map ClusterEntry.text).count (pyMaxBySnd (c0 :: rest)).1 := hr_spec.2
  · refine ⟨pre.map Prod.fst, post.map Prod.fst, ?_, ?_⟩
    · rw [← hkeys, hcounts, hsplit, List.map_append, List.map_cons, hcanon, hcounts]
    · intro t htp
      obtain ⟨z, hz, rfl⟩ := List.mem_map.mp htp
      have hz_mem : z ∈ c0 :: rest := by
        have hmem1 : z ∈ pre ++ pyMaxBySnd (c0 :: rest) :: post :=
          List.mem_append.mpr (Or.inl hz)
        rw [← hsplit] at hmem1
        exact hmem1
      have hz_spec := countsOf_pair_spec (data.map ClusterEntry.text) z
        (by rw [hcounts]; exact hz_mem)
      have hlt := hpre z hz
      rw [hcanon, hcounts, ← hr_spec.2, ← hz_spec.2]
      exact hlt

/-! ## Claim C1: canonical name selection (corrected) -/

/-- C1 counterexample: when the entity table supplies no `name` column, the
per-row canonical value defaults to the row's surface text
(`row.get("name", text)`), so the last row's non-empty text wins: cluster 5
with texts Tom, Tom, Tom, "Mr. Sawyer" and no canonical-name field yields
`canonical_name = "Mr. Sawyer"`, not the most frequent text "Tom" that the
claim requires. -/
theorem C1_canonical_name_counterexample :
    ((build_characters_and_mentions
        (some "COREF\tstart_token\tend_token\ttext\n5\t0\t0\tTom\n5\t0\t0\tTom\n5\t0\t0\tTom\n5\t0\t0\tMr. Sawyer")
        []).1.map (fun ch => (ch.id, ch.canonical_name)) =
      [("char_5", "Mr. Sawyer")]) ∧ "Mr. Sawyer" ≠ "Tom" :=
  ⟨by decide, by decide⟩

/-- C1 amended: for every cluster, the character's canonical name is the
last non-empty per-row canonical value in row order, where a row's
canonical value is its `name` field if present and its surface text
otherwise; only when every row's canonical value is empty does the most
frequent surface text win, with frequency ties broken in favor of the
first-encountered text (expressed via the first-encounter key order
`insKeys`: every distinct text strictly before the winner has a strictly
smaller count). -/
theorem C1_canonical_name_amended (entities_file : Option String) (tokens : List Token) :
    ∀ ch ∈ (build_characters_and_mentions entities_file tokens).1,
      ∃ cid : Int, 0 ≤ cid ∧ ch.id = charIdOf cid ∧
        clusterEntriesSpec tokens (parse_tsv_file entities_file) cid ≠ [] ∧
        (∀ s, lastNonEmpty ((clusterEntriesSpec tokens (parse_tsv_file entities_file) cid).map
            ClusterEntry.canonical) = some s → ch.canonical_name = s) ∧
        (lastNonEmpty ((clusterEntriesSpec tokens (parse_tsv_file entities_file) cid).map
            ClusterEntry.canonical) = none →
          ch.canonical_name ∈
            (clusterEntriesSpec tokens (parse_tsv_file entities_file) cid).map
              ClusterEntry.text ∧
          (∀ t ∈ (clusterEntriesSpec tokens (parse_tsv_file entities_file) cid).map
              ClusterEntry.text,
            ((clusterEntriesSpec tokens (parse_tsv_file entities_file) cid).map
              ClusterEntry.text).count t ≤
            ((clusterEntriesSpec tokens (parse_tsv_file entities_file) cid).map
              ClusterEntry.text).count ch.canonical_name) ∧
          ∃ pre post,
            insKeys [] ((clusterEntriesSpec tokens (parse_tsv_file entities_file) cid).map
              ClusterEntry.text) = pre ++ ch.canonical_name :: post ∧
            ∀ t ∈ pre,
              ((clusterEntriesSpec tokens (parse_tsv_file entities_file) cid).map
                ClusterEntry.text).count t <
              ((clusterEntriesSpec tokens (parse_tsv_file entities_file) cid).map
                ClusterEntry.text).count ch.canonical_name) := by
  intro ch hch
  rw [bcm_characters_eq] at hch
  obtain ⟨⟨cid, data⟩, hmemG, rfl⟩ := List.mem_map.mp hch
  have hnodup : ((groupFold (entityClusterStream tokens (parse_tsv_file entities_file))
      []).map Prod.fst).Nodup :=
    nodup_keys_groupFold _ (by simp)
  have hfind := dictFind?_of_mem_nodup hnodup hmemG
  rw [dictFind?_groupFold_nil] at hfind
  by_cases hkey : cid ∈ (entityClusterStream tokens (parse_tsv_file entities_file)).map
      Prod.fst
  · rw [if_pos hkey] at hfind
    injection hfind with hfind
    have hcid : 0 ≤ cid := clusterGroups_keys_nonneg _ _ cid
      (List.mem_map_of_mem Prod.fst hmemG)
    have hdata : clusterEntriesSpec tokens (parse_tsv_file entities_file) cid = data := hfind
    have hne : data ≠ [] := by
      intro hnil
      obtain ⟨p, hp, hps⟩ := List.mem_map.mp hkey
      have hmemf : p ∈ (entityClusterStream tokens
          (parse_tsv_file entities_file)).filter (fun q => q.1 = cid) :=
        List.mem_filter.mpr ⟨hp, by simp [hps]⟩
      have : sel (entityClusterStream tokens (parse_tsv_file entities_file)) cid = [] := by
        rw [hfind, hnil]
      unfold sel at this
      rw [List.map_eq_nil_iff] at this
      exact List.ne_nil_of_mem hmemf this
    refine ⟨cid, hcid, rfl, by rw [hdata]; exact hne, ?_, ?_⟩
    · intro s hs
      rw [hdata] at hs
      exact mkCharacter_canonical_last cid data hs
    · intro hnone
      rw [hdata] at hnone
      rw [hdata]
      exact mkCharacter_canonical_fallback cid data hne hnone
  · rw [if_neg hkey] at hfind
    exact absurd hfind (by simp)

/-- C1 witness: with a `name` column present but empty on every row, the
fallback picks the most frequent surface text "Tom" (2 of 3 rows) in
cluster 5. -/
theorem C1_canonical_name_amended_witness :
    ∃ ch ∈ (build_characters_and_mentions
        (some "COREF\tstart_token\tend_token\ttext\tname\n5\t0\t0\tTom\t\n5\t0\t0\tMr. Sawyer\t\n5\t0\t0\tTom\t")
        []).1,
      ∃ cid : Int, 0 ≤ cid ∧ ch.id = charIdOf cid ∧
        clusterEntriesSpec []
          (parse_tsv_file (some "COREF\tstart_token\tend_token\ttext\tname\n5\t0\t0\tTom\t\n5\t0\t0\tMr. Sawyer\t\n5\t0\t0\tTom\t"))
          cid ≠ [] ∧
        (∀ s, lastNonEmpty ((clusterEntriesSpec []
            (parse_tsv_file (some "COREF\tstart_token\tend_token\ttext\tname\n5\t0\t0\tTom\t\n5\t0\t0\tMr. Sawyer\t\n5\t0\t0\tTom\t"))
            cid).map ClusterEntry.canonical) = some s → ch.canonical_name = s) ∧
        (lastNonEmpty ((clusterEntriesSpec []
            (parse_tsv_file (some "COREF\tstart_token\tend_token\ttext\tname\n5\t0\t0\tTom\t\n5\t0\t0\tMr. Sawyer\t\n5\t0\t0\tTom\t"))
            cid).map ClusterEntry.canonical) = none →
          ch.canonical_name ∈
            (clusterEntriesSpec []
              (parse_tsv_file (some "COREF\tstart_token\tend_token\ttext\tname\n5\t0\t0\tTom\t\n5\t0\t0\tMr. Sawyer\t\n5\t0\t0\tTom\t"))
              cid).map ClusterEntry.text ∧
          (∀ t ∈ (clusterEntriesSpec []
              (parse_tsv_file (some "COREF\tstart_token\tend_token\ttext\tname\n5\t0\t0\tTom\t\n5\t0\t0\tMr. Sawyer\t\n5\t0\t0\tTom\t"))
              cid).map ClusterEntry.text,
            ((clusterEntriesSpec []
              (parse_tsv_file (some "COREF\tstart_token\tend_token\ttext\tname\n5\t0\t0\tTom\t\n5\t0\t0\tMr. Sawyer\t\n5\t0\t0\tTom\t"))
              cid).map ClusterEntry.text).count t ≤
            ((clusterEntriesSpec []
              (parse_tsv_file (some "COREF\tstart_token\tend_token\ttext\tname\n5\t0\t0\tTom\t\n5\t0\t0\tMr. Sawyer\t\n5\t0\t0\tTom\t"))
              cid).map ClusterEntry.text).count ch.canonical_name) ∧
          ∃ pre post,
            insKeys [] ((clusterEntriesSpec []
              (parse_tsv_file (some "COREF\tstart_token\tend_token\ttext\tname\n5\t0\t0\tTom\t\n5\t0\t0\tMr. Sawyer\t\n5\t0\t0\tTom\t"))
              cid).map ClusterEntry.text) = pre ++ ch.canonical_name :: post ∧
            ∀ t ∈ pre,
              ((clusterEntriesSpec []
                (parse_tsv_file (some "COREF\tstart_token\tend_token\ttext\tname\n5\t0\t0\tTom\t\n5\t0\t0\tMr. Sawyer\t\n5\t0\t0\tTom\t"))
                cid).map ClusterEntry.text).count t <
              ((clusterEntriesSpec []
                (parse_tsv_file (some "COREF\tstart_token\tend_token\ttext\tname\n5\t0\t0\tTom\t\n5\t0\t0\tMr. Sawyer\t\n5\t0\t0\tTom\t"))
                cid).map ClusterEntry.text).count ch.canonical_name) := by
  have hsingle : ∃ ch0, (build_characters_and_mentions
      (some "COREF\tstart_token\tend_token\ttext\tname\n5\t0\t0\tTom\t\n5\t0\t0\tMr. Sawyer\t\n5\t0\t0\tTom\t")
      []).1 = [ch0] := ⟨_, rfl⟩
  obtain ⟨ch0, hc⟩ := hsingle
  have hmem : ch0 ∈ (build_characters_and_mentions
      (some "COREF\tstart_token\tend_token\ttext\tname\n5\t0\t0\tTom\t\n5\t0\t0\tMr. Sawyer\t\n5\t0\t0\tTom\t")
      []).1 := by
    rw [hc]
    exact List.mem_singleton.mpr rfl
  exact ⟨ch0, hmem, C1_canonical_name_amended
    (some "COREF\tstart_token\tend_token\ttext\tname\n5\t0\t0\tTom\t\n5\t0\t0\tMr. Sawyer\t\n5\t0\t0\tTom\t")
    [] ch0 hmem⟩
